import Mathlib

/-!
Verification of the ai-notes RAG core against its specification.

This file gives a shallow embedding, in Lean 4, of the retrieval and
generation subsystem of the ai-notes repository:

* the markdown chunker (`RagIndex._chunk_text`, src/app/rag/index.py),
* single-note indexing (`RagIndex.index_note` together with
  `Repository.replace_note_embeddings`),
* reciprocal rank fusion (`reciprocal_rank_fusion`, src/app/rag/fusion.py),
* the chunk selector (`ChunkSelector`, src/app/rag/chunk_selector.py),
* the query expander (`QueryExpander`, src/app/rag/query_expander.py),
* the retrieval pipeline (`RagIndex.query`),
* the streaming answer pipeline (`RagService.ask_stream` and
  `_extract_deltas`, src/app/rag/service.py),
* the non-streaming `generate` entry points of the two LLM clients.

Python floats are modelled as rationals (`ℚ`); machine strings are Lean
`String`s handled mostly as `List Char`.  External effects (the LLM, the
FTS5 engine, the cosine-distance extension) are supplied as explicit
function parameters; call counting, where a property speaks about the
number of calls, is modelled by threading an explicit call trace or call
counter through the embedded functions, mirroring the call sites of the
Python source one-for-one.
-/

namespace AiNotes

/-! ## Python string primitives -/

/-- Python whitespace for `str.strip()` / `str.split()` / `\s` (ASCII range). -/
def isPySpace (c : Char) : Bool :=
  c = ' ' || c = '\t' || c = '\n' || c = '\r' || c = '\x0b' || c = '\x0c'

/-- `str.strip()` on a character list. -/
def pyStripL (l : List Char) : List Char :=
  ((l.dropWhile isPySpace).reverse.dropWhile isPySpace).reverse

/-- Python `str.strip()` (no arguments: strip whitespace from both ends). -/
def pyStrip (s : String) : String :=
  (pyStripL s.toList).asString

/-- `str.strip(chars)`: strip any of the given characters from both ends. -/
def pyStripCharsL (chars : List Char) (l : List Char) : List Char :=
  ((l.dropWhile (chars.contains ·)).reverse.dropWhile (chars.contains ·)).reverse

/-- Python `str.strip(chars)` on strings. -/
def pyStripChars (chars : String) (s : String) : String :=
  (pyStripCharsL chars.toList s.toList).asString

/-- Whitespace word splitting, single pass: `cur` accumulates the current
word in reverse; a whitespace character closes the word (if any). -/
def wsWordsGo (cur : List Char) : List Char → List (List Char)
  | [] => if cur = [] then [] else [cur.reverse]
  | c :: t =>
    if isPySpace c then
      if cur = [] then wsWordsGo [] t else cur.reverse :: wsWordsGo [] t
    else wsWordsGo (c :: cur) t

/-- Words of `l`, whitespace-separated, no empties. -/
def wsWordsL (l : List Char) : List (List Char) :=
  wsWordsGo [] l

/-- Python `str.split()` with no separator: whitespace-run splitting, no empties. -/
def wsWords (s : String) : List String :=
  (wsWordsL s.toList).map List.asString

/-- Join a list of strings with a separator (`sep.join(parts)`). -/
def joinSep (sep : String) : List String → String
  | [] => ""
  | [x] => x
  | x :: y :: t => x ++ sep ++ joinSep sep (y :: t)

/-- Python `str.upper()` restricted to ASCII case mapping. -/
def pyUpper (s : String) : String :=
  (s.toList.map Char.toUpper).asString

/-- Python `str.lower()` / `str.casefold()` restricted to ASCII case mapping. -/
def pyLower (s : String) : String :=
  (s.toList.map Char.toLower).asString

/-! ## Chunker (`RagIndex._chunk_text`, src/app/rag/index.py lines 39-81)

The splitting regex is `(?=^#{1,6}\s)` in MULTILINE mode: a zero-width split
point at every line start followed by one to six `#` characters and a
whitespace character. -/

/-- Does this position (taken to be a line start) begin a markdown heading,
i.e. match `#{1,6}\s`? -/
def isHeadingAt (l : List Char) : Bool :=
  let hashes := l.takeWhile (· = '#')
  decide (1 ≤ hashes.length) && decide (hashes.length ≤ 6) &&
    (match l.drop hashes.length with
     | c :: _ => isPySpace c
     | [] => false)

/-- Zero-width split of a character list at every heading line start.
`cur` accumulates the current piece in reverse; `lineStart` tracks whether
the next character begins a line (MULTILINE `^`). -/
def headingSplitGo (cur : List Char) (lineStart : Bool) : List Char → List (List Char)
  | [] => [cur.reverse]
  | c :: t =>
    if lineStart && isHeadingAt (c :: t) then
      cur.reverse :: headingSplitGo [c] (c = '\n') t
    else
      headingSplitGo (c :: cur) (c = '\n') t

/-- `re.split(r"(?=^#{1,6}\s)", text, flags=re.MULTILINE)`. -/
def headingSplit (text : String) : List String :=
  (headingSplitGo [] true text.toList).map List.asString

/-- `text.split("\n\n")` — split on every non-overlapping occurrence of a
blank-line separator, keeping empty pieces (Python `str.split(sep)`). -/
def paragraphSplitGo (cur : List Char) : List Char → List (List Char)
  | [] => [cur.reverse]
  | '\n' :: '\n' :: t => cur.reverse :: paragraphSplitGo [] t
  | c :: t => paragraphSplitGo (c :: cur) t

/-- `text.split("\n\n")` on strings. -/
def paragraphSplit (text : String) : List String :=
  (paragraphSplitGo [] text.toList).map List.asString

/-- The merge loop of `_chunk_text`: greedily merge adjacent sections while the
combined length plus 2 (for the `"\n\n"` joiner) stays within `maxChars`. -/
def mergeSections (maxChars : Nat) (current : String) (acc : List String) :
    List String → List String
  | [] => if current ≠ "" then (acc ++ [current]) else acc
  | s :: rest =>
    if current.length + s.length + 2 ≤ maxChars then
      mergeSections maxChars (current ++ "\n\n" ++ s) acc rest
    else
      mergeSections maxChars s (acc ++ [current]) rest

/-- The section list computed by `_chunk_text` for a (pre-stripped) long text:
heading sections, stripped and filtered; when at most one survives, fall back
to blank-line paragraph boundaries. -/
def sectionsOf (text : String) : List String :=
  let sections := ((headingSplit text).map pyStrip).filter (· ≠ "")
  if sections.length ≤ 1 then
    ((paragraphSplit text).map pyStrip).filter (· ≠ "")
  else sections

/-- `RagIndex._chunk_text(text, max_chars)`: strip; empty → `[]`; short → the
stripped text; otherwise split at headings (falling back to paragraph
boundaries when at most one heading section survives), then merge adjacent
sections. -/
def chunkText (text : String) (maxChars : Nat) : List String :=
  let text := pyStrip text
  if text = "" then []
  else if text.length ≤ maxChars then [text]
  else
    match sectionsOf text with
    | [] => [text]
    | s0 :: rest =>
      match mergeSections maxChars s0 [] rest with
      | [] => [text]
      | chunks => chunks

/-! ## Data model (src/app/data/repository.py, src/app/data/schema.py)

A note row and a `note_embeddings` row.  Vectors are lists of rationals; the
little-endian float32 codec (`RagIndex._serialize_vector`) is a bijection up
to float32 rounding, so query blobs are modelled directly as vectors. -/

structure Note where
  id : Int
  title : String
  content : String
deriving DecidableEq, Repr

structure ChunkRow where
  note_id : Int
  chunk_index : Nat
  chunk_text : String
  vec : List ℚ
deriving DecidableEq, Repr

/-- The `note_embeddings` table. -/
abbrev Store := List ChunkRow

/-- All chunk rows of one note. -/
def chunksFor (s : Store) (noteId : Int) : List ChunkRow :=
  s.filter (fun r => r.note_id = noteId)

/-- `Repository.replace_note_embeddings(note_id, chunks)`: delete all chunk
rows of the note, then insert the new chunks with contiguous indices starting
at 0 (src/app/data/repository.py lines 289-311). -/
def replaceNoteEmbeddings (s : Store) (noteId : Int) (chunks : List (String × List ℚ)) :
    Store :=
  s.filter (fun r => r.note_id ≠ noteId) ++
    chunks.enum.map (fun p => ChunkRow.mk noteId p.1 p.2.1 p.2.2)

/-- `RagIndex._note_text(note)`: `f"{title}\n\n{content}".strip()`. -/
def noteText (n : Note) : String :=
  pyStrip (n.title ++ "\n\n" ++ n.content)

/-- `RagIndex.index_note(note_id)` (src/app/rag/index.py lines 85-124): read
the note, chunk its text, embed every chunk, skip chunks whose embedding came
back empty; if at least one chunk survived, replace the note's stored chunks
and return `True`, otherwise leave the store untouched and return `False`.
`embed` is the LLM client's embedding call (empty list = failure). -/
def indexNote (notes : List Note) (embed : String → List ℚ) (maxChars : Nat)
    (s : Store) (noteId : Int) : Bool × Store :=
  match notes.find? (fun n => n.id = noteId) with
  | none => (false, s)
  | some note =>
    let chunks := chunkText (noteText note) maxChars
    let chunkEmbeddings := chunks.filterMap (fun c =>
      match embed c with
      | [] => none
      | v => some (c, v))
    match chunkEmbeddings with
    | [] => (false, s)
    | ce => (true, replaceNoteEmbeddings s noteId ce)

/-! ## Chunk selector (src/app/rag/chunk_selector.py)

The LLM is modelled as an oracle indexed by call number: call `n` either
raises (`Except.error`) or returns a raw response string.  `select` threads
the call counter exactly as the Python list comprehension calls
`is_relevant` once per chunk, which calls `generate` once. -/

/-- The outcome of one `LLMClient.generate` call: an exception or a response. -/
abbrev LLMOutcome := Except Unit String

/-- `ChunkSelector._parse_response`: empty → not relevant; otherwise the first
whitespace token, stripped of `.,!?;:` and uppercased, must equal `YES`. -/
def parseResponse (response : String) : Bool :=
  if pyStrip response = "" then false
  else
    match wsWords (pyStrip response) with
    | [] => false
    | w :: _ => pyUpper (pyStripChars ".,!?;:" w) = "YES"

/-- `ChunkSelector.is_relevant` on the outcome of its single `generate` call:
fail-open on exception, `_parse_response` on a reply. -/
def isRelevantOutcome : LLMOutcome → Bool
  | .error _ => true
  | .ok r => parseResponse r

/-- `ChunkSelector.select(chunks, question)` with an explicit oracle: returns
the retained chunks and the next call number.  The empty list short-circuits
with no LLM call. -/
def selectGo {α : Type} (oracle : Nat → LLMOutcome) (n : Nat) :
    List α → List α × Nat
  | [] => ([], n)
  | c :: t =>
    let keep := isRelevantOutcome (oracle n)
    let rest := selectGo oracle (n + 1) t
    (if keep then c :: rest.1 else rest.1, rest.2)

/-- `ChunkSelector.select`: the Python method returns `[]` without LLM calls
for empty input, else filters by per-chunk `is_relevant` calls in order. -/
def select {α : Type} (oracle : Nat → LLMOutcome) (n : Nat) (chunks : List α) :
    List α × Nat :=
  match chunks with
  | [] => ([], n)
  | cs => selectGo oracle n cs

/-! ## Reciprocal rank fusion (src/app/rag/fusion.py)

A retrieval document (`dict` in Python) is modelled with its identifying and
payload fields plus the optional `rrf_score` added by fusion.  The two Python
dicts `scores` (add per occurrence) and `docs` (keep first occurrence) share
their key set and insertion order, so they are modelled as one association
list of entries. -/

structure Doc where
  id : Int
  title : String
  content : String
  rrf_score : Option ℚ
deriving DecidableEq, Repr

/-- One entry of the fused map: document id, the dict of the first occurrence,
and the accumulated RRF score. -/
structure FEntry where
  id : Int
  doc : Doc
  score : ℚ
deriving DecidableEq, Repr

/-- Record one occurrence: add `v` to the id's score if the id is present
(keeping the first-seen doc), else append a new entry (insertion order). -/
def fuseAdd (m : List FEntry) (i : Int) (d : Doc) (v : ℚ) : List FEntry :=
  match m with
  | [] => [⟨i, d, v⟩]
  | e :: t => if e.id = i then ⟨e.id, e.doc, e.score + v⟩ :: t else e :: fuseAdd t i d v

/-- Process one ranked list: for each 0-based rank `r`, add `1 / (k + r + 1)`. -/
def fuseList (kq : ℚ) (m : List FEntry) (l : List Doc) : List FEntry :=
  l.enum.foldl (fun m p => fuseAdd m p.2.id p.2 (1 / (kq + p.1 + 1))) m

/-- Process all ranked lists in order. -/
def fuseAll (kq : ℚ) (lists : List (List Doc)) : List FEntry :=
  lists.foldl (fuseList kq) []

/-- Stable descending insertion: place `e` before the first entry whose score
is not greater, i.e. after all strictly greater scores (Python's stable
`sorted(..., reverse=True)`). -/
def insertDesc (e : FEntry) : List FEntry → List FEntry
  | [] => [e]
  | f :: t => if f.score > e.score then f :: insertDesc e t else e :: f :: t

/-- Stable sort by descending score. -/
def sortDesc : List FEntry → List FEntry
  | [] => []
  | e :: t => insertDesc e (sortDesc t)

/-- `reciprocal_rank_fusion(ranked_lists, id_key="id", k)`: accumulate scores
and first-occurrence docs, sort ids by descending score (stable), and return
for each id a copy of its first-occurrence doc with `rrf_score` attached. -/
def rrf (kq : ℚ) (lists : List (List Doc)) : List Doc :=
  (sortDesc (fuseAll kq lists)).map (fun e => { e.doc with rrf_score := some e.score })

/-- The 1-based-rank membership of the spec formula, as a 0-based index:
first position of the id in a ranked list, if any. -/
def rankIn : List Doc → Int → Option Nat
  | [], _ => none
  | d :: t, i => if d.id = i then some 0 else (rankIn t i).map (· + 1)

/-- One list's contribution to the spec score: `1 / (k + rank)` with a
1-based rank when the document occurs in the list, else 0. -/
def listTerm (kq : ℚ) (i : Int) (l : List Doc) : ℚ :=
  match rankIn l i with
  | some r => 1 / (kq + r + 1)
  | none => 0

/-- The spec's RRF score: `score(d) = Σⱼ 1 / (k + rank_in_Lⱼ(d))` with 1-based
ranks and zero contribution from lists not containing `d`. -/
def specScore (kq : ℚ) (lists : List (List Doc)) (i : Int) : ℚ :=
  (lists.map (listTerm kq i)).sum

/-- Score looked up in the fused map (0 when absent). -/
def scoreOf (m : List FEntry) (i : Int) : ℚ :=
  ((m.find? (fun e => e.id = i)).map (fun e => e.score)).getD 0

/-! ## Query expander (src/app/rag/query_expander.py) -/

/-- `QueryExpander._normalize_query`: collapse whitespace runs and trim
(`re.sub(r"\s+", " ", value).strip()`). -/
def normalizeQuery (s : String) : String :=
  joinSep " " (wsWords s)

/-- `QueryExpander._clamp_target_count`: clamp to `[1, 8]`. -/
def clampTargetCount (v : Int) : Nat :=
  (max 1 (min 8 v)).toNat

/-- Strip a leading bullet marker: `^(?:\d+[\).:-]?|[-*•])\s*` substituted by
the empty string (anchored, so at most one substitution). -/
def stripBullet (l : List Char) : List Char :=
  let ds := l.takeWhile Char.isDigit
  if ds ≠ [] then
    let rest := l.drop ds.length
    let rest :=
      match rest with
      | c :: t => if c = ')' ∨ c = '.' ∨ c = ':' ∨ c = '-' then t else c :: t
      | [] => []
    rest.dropWhile isPySpace
  else
    match l with
    | c :: t => if c = '-' ∨ c = '*' ∨ c = '•' then t.dropWhile isPySpace else c :: t
    | [] => []

/-- `str.splitlines()` worker: split at `\r\n`, `\n` or `\r`. -/
def splitLinesGo (cur : List Char) : List Char → List (List Char)
  | [] => [cur.reverse]
  | '\r' :: '\n' :: t => cur.reverse :: splitLinesGo [] t
  | '\n' :: t => cur.reverse :: splitLinesGo [] t
  | '\r' :: t => cur.reverse :: splitLinesGo [] t
  | c :: t => splitLinesGo (c :: cur) t

/-- Python `str.splitlines()`: no trailing empty piece for a trailing
terminator; the empty string yields no lines. -/
def splitLines (s : String) : List String :=
  match s.toList with
  | [] => []
  | l =>
    let pieces := splitLinesGo [] l
    match pieces.getLast? with
    | some [] => (pieces.dropLast).map List.asString
    | _ => pieces.map List.asString

/-- `str.split(";")`. -/
def semicolonSplitGo (cur : List Char) : List Char → List (List Char)
  | [] => [cur.reverse]
  | ';' :: t => cur.reverse :: semicolonSplitGo [] t
  | c :: t => semicolonSplitGo (c :: cur) t

/-- `QueryExpander._parse_output`: per line strip bullets, quotes and
whitespace, normalize; if no line survives, fall back to `;`-splitting. -/
def parseOutput (raw : String) : List String :=
  let stripped := pyStrip raw
  if stripped = "" then []
  else
    let candidates := (splitLines stripped).filterMap (fun line =>
      let cleaned :=
        pyStripChars "\x27" (pyStripChars "\x22" (pyStrip (stripBullet line.toList).asString))
      let normalized := normalizeQuery cleaned
      if normalized = "" then none else some normalized)
    if candidates ≠ [] then candidates
    else
      ((semicolonSplitGo [] stripped.toList).map (fun p => normalizeQuery p.asString)).filter
        (· ≠ "")

/-- `QueryExpander._dedupe_stable`: drop empty normalizations, dedupe
case-insensitively (casefold) keeping first-seen order. -/
def dedupeGo (seen : List String) (acc : List String) : List String → List String
  | [] => acc
  | v :: t =>
    let nz := normalizeQuery v
    if nz = "" then dedupeGo seen acc t
    else
      let key := pyLower nz
      if seen.contains key then dedupeGo seen acc t
      else dedupeGo (key :: seen) (acc ++ [nz]) t

/-- `QueryExpander._dedupe_stable(values)`. -/
def dedupeStable (values : List String) : List String :=
  dedupeGo [] [] values

/-- The expansion prompt built by `QueryExpander.expand`. -/
def expansionPrompt (baseQuery : String) (cappedCount : Nat) : String :=
  "Generate concise retrieval-friendly rewrites for this question.\n" ++
  "Preserve the original meaning and user intent exactly; only rewrite wording " ++
  "or keywords for search coverage.\n" ++
  "Do not broaden, narrow, or change topic.\n" ++
  "Question: " ++ baseQuery ++ "\n" ++
  "Return up to " ++ toString (cappedCount - 1) ++ " alternatives, one per line, no prose."

/-- `QueryExpander.expand(question, target_count)`, returning the query list
and the number of LLM `generate` calls made.  `n = 1` (after clamping) and a
blank question short-circuit with zero calls; an LLM exception falls back to
the normalized original. -/
def expand (gen : String → LLMOutcome) (question : String) (targetCount : Int) :
    List String × Nat :=
  let baseQuery := normalizeQuery question
  if baseQuery = "" then ([], 0)
  else
    let capped := clampTargetCount targetCount
    if capped = 1 then ([baseQuery], 0)
    else
      match gen (expansionPrompt baseQuery capped) with
      | .error _ => ([baseQuery], 1)
      | .ok raw =>
        let parsed := parseOutput raw
        let deduped := dedupeStable (baseQuery :: parsed)
        match deduped with
        | [] => ([baseQuery], 1)
        | ds => (ds.take capped, 1)

/-! ## Store search operations (src/app/data/repository.py) -/

/-- Stable ascending insertion by distance (SQL `ORDER BY cosine_distance ASC`,
ties kept in table order). -/
def insertAscQ (e : Note × ℚ) : List (Note × ℚ) → List (Note × ℚ)
  | [] => [e]
  | f :: t => if f.2 < e.2 then f :: insertAscQ e t else e :: f :: t

/-- Stable ascending sort by distance. -/
def sortAscQ : List (Note × ℚ) → List (Note × ℚ)
  | [] => []
  | e :: t => insertAscQ e (sortAscQ t)

/-- `Repository.search_notes_by_embedding(query_vector, top_k)` (lines
166-199): empty chunk table → `[]`; otherwise one row per note having chunks,
with the minimum cosine distance between the query and any of the note's
chunks, ordered ascending, limited to `top_k`.  Result rows carry the note's
id, title and full content.  `dist` is the loaded `vec_distance_cosine`. -/
def vecSearch (dist : List ℚ → List ℚ → ℚ) (notes : List Note) (store : Store)
    (qvec : List ℚ) (topK : Nat) : List Doc :=
  if store = [] then []
  else
    let cands := notes.filterMap (fun n =>
      match (chunksFor store n.id).map (fun r => dist r.vec qvec) with
      | [] => none
      | d :: ds => some (n, ds.foldl min d))
    ((sortAscQ cands).take topK).map (fun p => Doc.mk p.1.id p.1.title p.1.content none)

/-- `Repository._sanitize_fts_query`: blank FTS meta-characters, split on
whitespace, wrap each surviving token in double quotes, join with spaces. -/
def sanitizeFts (query : String) : String :=
  let cleaned := query.toList.map (fun c =>
    if c = '\x22' ∨ c = '^' ∨ c = '*' ∨ c = '(' ∨ c = ')' ∨ c = '[' ∨ c = ']'
    then ' ' else c)
  let words := wsWordsL cleaned
  match words with
  | [] => ""
  | ws => joinSep " " (ws.map (fun w => "\x22" ++ w.asString ++ "\x22"))

/-- `Repository.search_notes_by_bm25(query, top_k)` (lines 318-357): blank or
fully-sanitized-away queries return `[]`; otherwise the FTS5 engine (modelled
as the abstract ranking `fts`, best first, over note rowids) is joined back to
the notes table and limited to `top_k`.  Result rows carry full note content. -/
def bm25Search (fts : String → List Int) (notes : List Note) (query : String)
    (topK : Nat) : List Doc :=
  if pyStrip query = "" then []
  else
    let safe := sanitizeFts query
    if safe = "" then []
    else
      (((fts safe).filterMap (fun i => notes.find? (fun n => n.id = i))).take topK).map
        (fun n => Doc.mk n.id n.title n.content none)

/-- Modelled from the spec: `Repository.get_best_chunk_text(note_id,
query_blob)` is absent from src/app/data/repository.py — only its caller
`RagIndex._hydrate_chunk_content` (src/app/rag/index.py line 361) and the test
fake in src/tests/test_rag_index.py reference it.  Spec §4.3: "return the text
of the chunk of `note_id` minimizing cosine distance to the query"; `None`
when the note has no chunks (the caller checks `is not None`). -/
def bestChunkText (dist : List ℚ → List ℚ → ℚ) (store : Store) (noteId : Int)
    (qvec : List ℚ) : Option String :=
  match chunksFor store noteId with
  | [] => none
  | r :: rs =>
    some ((rs.foldl (fun best r2 =>
      if dist r2.vec qvec < dist best.vec qvec then r2 else best) r).chunk_text)

/-! ## RAG index retrieval (`RagIndex.query`, src/app/rag/index.py)

The collaborators of the Python object are explicit parameters; a call trace
records every embedding call, vector search, BM25 search and LLM `generate`
call in execution order. -/

/-- One external call made during retrieval. -/
inductive CallTag where
  | embedCall (q : String)
  | vecSearchCall
  | bm25Call (q : String)
  | genCall
deriving DecidableEq, Repr

/-- The collaborators consumed by retrieval. -/
structure QueryEnv where
  notes : List Note
  store : Store
  dist : List ℚ → List ℚ → ℚ
  embed : String → List ℚ
  gen : String → LLMOutcome
  fts : String → List Int

/-- `RagIndex._resolve_hybrid(hybrid, use_hybrid)`. -/
def resolveHybrid (hybrid useHybrid : Option Bool) : Bool :=
  match useHybrid with
  | some u => u
  | none => hybrid.getD true

/-- `RagIndex._expand_questions`: delegate to the expander, falling back to
the stripped question (or nothing, if blank) when it returns empty. -/
def expandQuestions (env : QueryEnv) (question : String) (tqc : Int) :
    List String × List CallTag :=
  let strippedQuestion := pyStrip question
  let fallback := if strippedQuestion = "" then [] else [strippedQuestion]
  let e := expand env.gen question tqc
  let tr := List.replicate e.2 CallTag.genCall
  if e.1 = [] then (fallback, tr) else (e.1, tr)

/-- `RagIndex._collect_ranked_lists` (lines 290-348): per expanded query,
embed (skipping the leg on failure), vector-search, and if hybrid also
BM25-search; remember the first successful embedding as the hydration key. -/
def collectRankedLists (env : QueryEnv) (fetchK : Nat) (hybrid : Bool) :
    List String → List (List Doc) × Option (List ℚ) × List CallTag
  | [] => ([], none, [])
  | q :: rest =>
    let v := env.embed q
    let r := collectRankedLists env fetchK hybrid rest
    if v = [] then
      (r.1, r.2.1, CallTag.embedCall q :: r.2.2)
    else
      let vres := vecSearch env.dist env.notes env.store v fetchK
      if hybrid then
        let bres := bm25Search env.fts env.notes q fetchK
        (vres :: bres :: r.1, some v,
          CallTag.embedCall q :: CallTag.vecSearchCall :: CallTag.bm25Call q :: r.2.2)
      else
        (vres :: r.1, some v, CallTag.embedCall q :: CallTag.vecSearchCall :: r.2.2)

/-- `RagIndex._hydrate_chunk_content` (lines 350-363): with no hydration key
do nothing; otherwise replace each result's `content` with the note's best
chunk text whenever the lookup returns one. -/
def hydrateChunkContent (dist : List ℚ → List ℚ → ℚ) (store : Store)
    (results : List Doc) (blob : Option (List ℚ)) : List Doc :=
  match blob with
  | none => results
  | some qvec =>
    results.map (fun d =>
      match bestChunkText dist store d.id qvec with
      | some t => { d with content := t }
      | none => d)

/-- `RagIndex.query(question, top_k, transformed_query_count, hybrid,
use_hybrid)` (lines 163-244): expand, collect ranked lists with per-leg
oversampling `top_k * 4`, fuse (single list passed through), trim to `top_k`,
hydrate.  Returns the results and the external call trace. -/
def ragQuery (env : QueryEnv) (question : String) (topK : Nat) (tqc : Int)
    (hybrid useHybrid : Option Bool) : List Doc × List CallTag :=
  let effectiveHybrid := resolveHybrid hybrid useHybrid
  let fetchK := topK * 4
  let e := expandQuestions env question tqc
  if e.1 = [] then ([], e.2)
  else
    let c := collectRankedLists env fetchK effectiveHybrid e.1
    if c.1 = [] then ([], e.2 ++ c.2.2)
    else
      let fused :=
        match c.1 with
        | [l] => l
        | ls => rrf 60 ls
      let results := fused.take topK
      (hydrateChunkContent env.dist env.store results c.2.1, e.2 ++ c.2.2)

/-! ## LLM clients, non-streaming `generate`

The HTTP transport (`_post_json`) is modelled by its outcome: an exception or
the parsed JSON body (typed by what the client reads from it). -/

/-- The body read by `OllamaClient.generate`: `data.get("response", "")`. -/
structure OllamaGenBody where
  response : Option String
deriving DecidableEq, Repr

/-- `OllamaClient.generate(prompt, system)` (src/app/rag/ollama_client.py
lines 54-67): no try/except — a transport or parsing error propagates to the
caller; on success, return the `response` field, defaulting to `""`. -/
def ollamaGenerate (post : Except String OllamaGenBody) : Except String String :=
  post.map (fun d => d.response.getD "")

/-- The body read by `OpenAICompatibleClient.generate`:
`response["choices"][0]["message"]["content"]`. -/
structure OAChatBody where
  choices : List String
deriving DecidableEq, Repr

/-- `OpenAICompatibleClient.generate(prompt, system)`
(src/app/rag/openai_client.py lines 67-80): the whole call is wrapped in
try/except — any transport, protocol or extraction error yields `""`.  An
empty `choices` list raises `IndexError` inside the try, hence also `""`. -/
def openaiGenerate (post : Except String OAChatBody) : String :=
  match post with
  | .error _ => ""
  | .ok r =>
    match r.choices with
    | c :: _ => c
    | [] => ""

/-! ## Streaming service (`RagService.ask_stream` and `_extract_deltas`,
src/app/rag/service.py) -/

/-- `"<think>"` as lowered characters. -/
def openTag : List Char := ['<', 't', 'h', 'i', 'n', 'k', '>']

/-- `"</think>"` as lowered characters. -/
def closeTag : List Char := ['<', '/', 't', 'h', 'i', 'n', 'k', '>']

/-- `str.find(pat)`: index of the first occurrence of `pat`, if any. -/
def findSub (pat : List Char) : List Char → Option Nat
  | [] => if pat.isPrefixOf ([] : List Char) then some 0 else none
  | c :: t => if pat.isPrefixOf (c :: t) then some 0 else (findSub pat t).map (· + 1)

/-- The `while text:` loop of `_extract_deltas` (lines 166-195), fuelled: in
answer mode, text up to a `<think>` goes to the answer delta; in think mode,
text up to `</think>` goes to the thinking delta; text with no marker is
consumed whole.  The search is done on the lowercased text. -/
def edGo (fuel : Nat) (td ad : List Char) (inTh : Bool) (text : List Char) :
    List Char × List Char × Bool × List Char :=
  match fuel with
  | 0 => (td, ad, inTh, text)
  | fuel + 1 =>
    match text with
    | [] => (td, ad, inTh, [])
    | c :: t =>
      if inTh then
        match findSub closeTag ((c :: t).map Char.toLower) with
        | none => (td ++ c :: t, ad, inTh, [])
        | some i => edGo fuel (td ++ (c :: t).take i) ad false ((c :: t).drop (i + 8))
      else
        match findSub openTag ((c :: t).map Char.toLower) with
        | none => (td, ad ++ c :: t, inTh, [])
        | some i => edGo fuel td (ad ++ (c :: t).take i) true ((c :: t).drop (i + 7))

/-- `_extract_deltas(text, in_think)`: run the marker loop, then keep at most
the last `tail_keep = 7` characters of the remainder. -/
def extractDeltas (text : String) (inTh : Bool) : String × String × Bool × String :=
  let l := text.toList
  let r := edGo (l.length + 1) [] [] inTh l
  let rem := if r.2.2.2.length > 7 then r.2.2.2.drop (r.2.2.2.length - 7) else r.2.2.2
  (r.1.asString, r.2.1.asString, r.2.2.1, rem.asString)

/-- One event yielded by `ask_stream`.  Absent dict keys are `none` / `false`. -/
structure StreamEvent where
  status : Option String
  answer_delta : String
  thinking_delta : String
  sources : List String
  done : Bool
  cancelled : Bool
deriving DecidableEq, Repr

/-- A status event: `{"status": msg, "answer_delta": "", ..., "done": False}`. -/
def statusEvent (msg : String) (sources : List String) : StreamEvent :=
  ⟨some msg, "", "", sources, false, false⟩

/-- A delta event. -/
def deltaEvent (td ad : String) (sources : List String) : StreamEvent :=
  ⟨none, ad, td, sources, false, false⟩

/-- The normal terminal event (`done=True`). -/
def terminalEvent (sources : List String) : StreamEvent :=
  ⟨none, "", "", sources, true, false⟩

/-- The cancellation terminal event (`done=True, cancelled=True`). -/
def cancelledEvent (sources : List String) : StreamEvent :=
  ⟨none, "", "", sources, true, true⟩

/-- The `for chunk in generate_stream(...)` loop of `ask_stream` (lines
76-109).  The cancel predicate is polled once per pulled chunk, indexed by
poll number; on `true` the cancelled terminal event is yielded and the rest
of the stream is never consumed.  After the loop, a non-empty pending buffer
is flushed and the terminal event is yielded. -/
def streamGo (cancel : Option (Nat → Bool)) (sources : List String) :
    List String → String → Bool → Nat → List StreamEvent
  | [], pending, inTh, _ =>
    (if pending ≠ "" then
      let r := extractDeltas pending inTh
      if r.1 ≠ "" ∨ r.2.1 ≠ "" then [deltaEvent r.1 r.2.1 sources] else []
    else []) ++ [terminalEvent sources]
  | chunk :: rest, pending, inTh, i =>
    if (match cancel with | some p => p i | none => false) then
      [cancelledEvent sources]
    else
      let r := extractDeltas (pending ++ chunk) inTh
      (if r.1 ≠ "" ∨ r.2.1 ≠ "" then [deltaEvent r.1 r.2.1 sources] else []) ++
        streamGo cancel sources rest r.2.2.2 r.2.2.1 (i + 1)

/-- `RagService.ask_stream(question, cancel_cb, status_cb)` (lines 45-109),
with the retrieval outcome abstracted: `statusUpdates` are the status messages
collected from `RagIndex.query`, `sources` the truncated title list, `chunks`
the deltas produced by the LLM's `generate_stream`. -/
def askStream (statusUpdates : List String) (sources : List String)
    (chunks : List String) (cancel : Option (Nat → Bool)) : List StreamEvent :=
  (statusUpdates.map (fun m => statusEvent m sources)) ++
    [statusEvent "Querying Ollama" sources] ++
    streamGo cancel sources chunks "" false 0

/-- Concatenation of the `answer_delta` fields of a list of events. -/
def answersJoined (evs : List StreamEvent) : String :=
  String.join (evs.map (fun e => e.answer_delta))

/-- Does the string contain `<think>` (case-insensitively)?  A delta free of
this marker passes through `_extract_deltas` unchanged in answer mode. -/
def hasOpenTag (s : String) : Bool :=
  (findSub openTag (s.toList.map Char.toLower)).isSome

/-! ## Statement-support definitions for the fusion and retrieval claims -/

/-- Doc looked up in the fused map. -/
def docOf (m : List FEntry) (i : Int) : Option Doc :=
  (m.find? (fun e => e.id = i)).map (fun e => e.doc)

/-- Key list (insertion order) of the fused map. -/
def fkeys (m : List FEntry) : List Int :=
  m.map (fun e => e.id)

/-- One fold step of `fuseList`. -/
def fuseStep (kq : ℚ) (m : List FEntry) (p : Nat × Doc) : List FEntry :=
  fuseAdd m p.2.id p.2 (1 / (kq + p.1 + 1))

/-- Contribution of a list of rank-tagged occurrences to one id's score. -/
def contrib (kq : ℚ) (ps : List (Nat × Doc)) (j : Int) : ℚ :=
  ((ps.filter (fun p => p.2.id = j)).map (fun p => 1 / (kq + p.1 + 1))).sum

/-- All rank-tagged occurrences of all ranked lists, in scan order. -/
def occAll (lists : List (List Doc)) : List (Nat × Doc) :=
  (lists.map List.enum).flatten

/-- The hydration key: the embedding of the first leg whose embedding call
succeeded (`chunk_query_blob` in `_collect_ranked_lists`). -/
def hydrationKey (embed : String → List ℚ) : List String → Option (List ℚ)
  | [] => none
  | q :: rest =>
    match embed q with
    | [] => hydrationKey embed rest
    | v => some v

/-- A concrete retrieval environment: note 1 is indexed with one chunk, note
2 has a note row (reachable through BM25) but no stored chunks. -/
def cexEnv : QueryEnv :=
  QueryEnv.mk [Note.mk 1 "t1" "c1", Note.mk 2 "t2" "c2"]
    [ChunkRow.mk 1 0 "chunk-one" [1]]
    (fun _ _ => 0) (fun _ => [1]) (fun _ => .ok "") (fun _ => [2])

/-- The ranked lists `cexEnv` produces for question `"q"`. -/
def cexLL : List (List Doc) :=
  [[Doc.mk 1 "t1" "c1" none], [Doc.mk 2 "t2" "c2" none]]

/-- Two ranked lists carrying the same document id with different payloads:
the first occurrence is the one titled `"first"`. -/
def dupLL : List (List Doc) :=
  [[Doc.mk 7 "first" "x" none], [Doc.mk 7 "second" "y" none]]

/-! ## Lemmas about the chunker -/

lemma dropWhile_head_false {p : Char → Bool} :
    ∀ {l : List Char} {c : Char} {t : List Char}, l.dropWhile p = c :: t → p c = false := by
  intro l
  induction l with
  | nil => intro c t h; simp [List.dropWhile] at h
  | cons a l ih =>
    intro c t h
    by_cases ha : p a
    · rw [List.dropWhile_cons_of_pos ha] at h
      exact ih h
    · rw [List.dropWhile_cons_of_neg ha] at h
      cases h
      simpa using ha

/-- The head of a stripped list is not whitespace. -/
lemma pyStripL_head {l : List Char} {c : Char} {t : List Char}
    (h : pyStripL l = c :: t) : isPySpace c = false := by
  have hsuf : ((l.dropWhile isPySpace).reverse.dropWhile isPySpace) <:+
      (l.dropWhile isPySpace).reverse := List.dropWhile_suffix _
  have hpre : pyStripL l <+: l.dropWhile isPySpace := by
    rw [← List.reverse_suffix]
    unfold pyStripL
    simpa using hsuf
  obtain ⟨r, hr⟩ := hpre
  rw [h] at hr
  exact dropWhile_head_false hr.symm

/-- A list headed by a non-whitespace character survives stripping. -/
lemma pyStripL_ne_nil {c : Char} (hc : isPySpace c = false) (w : List Char) :
    pyStripL (c :: w) ≠ [] := by
  unfold pyStripL
  intro h
  have h2 : (c :: w).dropWhile isPySpace = c :: w :=
    List.dropWhile_cons_of_neg (by simp [hc])
  rw [h2] at h
  have h3 : (c :: w).reverse.dropWhile isPySpace = [] := by
    have := congrArg List.reverse h
    simpa using this
  rw [List.dropWhile_eq_nil_iff] at h3
  have := h3 c (by simp)
  rw [hc] at this
  exact absurd this (by simp)

/-- The first piece of the paragraph split extends the accumulator. -/
lemma paragraphSplitGo_head (cur l : List Char) :
    ∃ w rest, paragraphSplitGo cur l = (cur.reverse ++ w) :: rest := by
  induction cur, l using paragraphSplitGo.induct with
  | case1 cur => exact ⟨[], [], by simp [paragraphSplitGo.eq_1]⟩
  | case2 cur t => exact ⟨[], paragraphSplitGo [] t, by simp [paragraphSplitGo.eq_2]⟩
  | case3 cur c t h ih =>
    obtain ⟨w, rest, hw⟩ := ih
    refine ⟨c :: w, rest, ?_⟩
    rw [paragraphSplitGo.eq_3 cur c t h, hw]
    simp

/-- For a non-blank stripped text the section list is never empty: the first
paragraph piece starts with the text's first (non-whitespace) character. -/
lemma sectionsOf_ne_nil (T : String) (c : Char) (t : List Char)
    (hT : T.toList = c :: t) (hc : isPySpace c = false) : sectionsOf T ≠ [] := by
  unfold sectionsOf
  set S1 := ((headingSplit T).map pyStrip).filter (· ≠ "") with hS1
  by_cases hlen : S1.length ≤ 1
  · simp only [hlen, if_pos]
    have hcne : c ≠ '\n' := by
      intro h; rw [h] at hc; simp [isPySpace] at hc
    have hstep : paragraphSplitGo [] (c :: t) = paragraphSplitGo [c] t := by
      refine paragraphSplitGo.eq_3 [] c t ?_
      intro t1 hcn _; exact hcne hcn
    obtain ⟨w, rest, hw⟩ := paragraphSplitGo_head [c] t
    have hmem : (c :: w).asString ∈ paragraphSplit T := by
      unfold paragraphSplit
      rw [hT, hstep, hw]
      simp
    have hne' : pyStrip ((c :: w).asString) ≠ "" := by
      unfold pyStrip
      intro h
      have : pyStripL ((c :: w).asString).toList = [] := by
        have := congrArg String.toList h
        simpa using this
      exact pyStripL_ne_nil hc w (by simpa using this)
    intro hnil
    rw [List.filter_eq_nil_iff] at hnil
    exact hnil (pyStrip ((c :: w).asString)) (List.mem_map_of_mem _ hmem) (by simpa using hne')
  · simp only [hlen, if_neg, if_false]
    intro hnil
    rw [hnil] at hlen
    simp at hlen

/-- Every section (either branch) is non-empty: both are filters by `≠ ""`. -/
lemma sectionsOf_mem_ne_empty {T s : String} (h : s ∈ sectionsOf T) : s ≠ "" := by
  unfold sectionsOf at h
  dsimp only at h
  split at h <;> simpa using (List.mem_filter.mp h).2

/-- The merge loop never returns an empty chunk list when fed non-empty
sections. -/
lemma mergeSections_ne_nil (maxChars : Nat) :
    ∀ (rest : List String) (current : String) (acc : List String),
      current ≠ "" → (∀ s ∈ rest, s ≠ "") →
      mergeSections maxChars current acc rest ≠ [] := by
  intro rest
  induction rest with
  | nil =>
    intro current acc hcur _
    simp [mergeSections, hcur]
  | cons s rest ih =>
    intro current acc hcur hrest
    simp only [mergeSections]
    split
    · refine ih _ acc ?_ (fun x hx => hrest x (by simp [hx]))
      intro h
      have h2 := congrArg String.length h
      rw [String.length_append, String.length_append] at h2
      have h3 : ("\n\n" : String).length = 2 := rfl
      have h4 : ("" : String).length = 0 := rfl
      omega
    · exact ih s (acc ++ [current]) (hrest s (by simp)) (fun x hx => hrest x (by simp [hx]))

/-- Chunks produced by the merge loop are bounded by `maxChars` whenever the
running chunk, the accumulated chunks and all remaining sections are. -/
lemma mergeSections_length_le (maxChars : Nat) :
    ∀ (rest : List String) (current : String) (acc : List String),
      current.length ≤ maxChars → (∀ s ∈ rest, s.length ≤ maxChars) →
      (∀ x ∈ acc, x.length ≤ maxChars) →
      ∀ c ∈ mergeSections maxChars current acc rest, c.length ≤ maxChars := by
  intro rest
  induction rest with
  | nil =>
    intro current acc hcur _ hacc c hc
    simp only [mergeSections] at hc
    split at hc
    · rcases List.mem_append.mp hc with h | h
      · exact hacc c h
      · simp at h; exact h ▸ hcur
    · exact hacc c hc
  | cons s rest ih =>
    intro current acc hcur hrest hacc c hc
    simp only [mergeSections] at hc
    split at hc
    · refine ih _ acc ?_ (fun x hx => hrest x (by simp [hx])) hacc c hc
      rename_i hfit
      calc (current ++ "\n\n" ++ s).length
          = current.length + 2 + s.length := by
            simp [String.length_append]; rfl
        _ ≤ maxChars := by omega
    · refine ih s (acc ++ [current]) (hrest s (by simp)) (fun x hx => hrest x (by simp [hx]))
        ?_ c hc
      intro x hx
      rcases List.mem_append.mp hx with h | h
      · exact hacc x h
      · simp at h; exact h ▸ hcur

/-! ## Claim C7 -/

/-- C7, counterexample: the chunker does not bound every chunk by `max_chars`.
The 7-character text `"xxxxxxx"` with `max_chars = 5` has no heading and no
blank line, so the paragraph fallback returns the whole text as one chunk of
length 7 > 5 (the behaviour the spec itself describes in scenario S3). -/
theorem chunkText_counterexample :
    chunkText "xxxxxxx" 5 = ["xxxxxxx"] ∧
      ¬ (∀ c ∈ chunkText "xxxxxxx" 5, c.length ≤ 5) := by
  constructor
  · decide
  · intro h
    exact absurd (h "xxxxxxx" (by decide)) (by decide)

/-- C7, amended: every chunk that the merge loop builds from more than one
section is bounded by `max_chars`; a chunk exceeds `max_chars` only when it is
a single indivisible section.  Hence, whenever every section of the split is
at most `max_chars` long, every returned chunk is at most `max_chars` long
(and short inputs are returned stripped, within the bound, unconditionally). -/
theorem chunkText_length_le (text : String) (maxChars : Nat)
    (h : ∀ s ∈ sectionsOf (pyStrip text), s.length ≤ maxChars) :
    ∀ c ∈ chunkText text maxChars, c.length ≤ maxChars := by
  intro c hc
  unfold chunkText at hc
  dsimp only at hc
  by_cases hT0 : pyStrip text = ""
  · simp [hT0] at hc
  · rw [if_neg hT0] at hc
    by_cases hT1 : (pyStrip text).length ≤ maxChars
    · rw [if_pos hT1] at hc
      simp at hc
      exact hc ▸ hT1
    · rw [if_neg hT1] at hc
      cases hS : sectionsOf (pyStrip text) with
      | nil =>
        exfalso
        cases hl : (pyStrip text).toList with
        | nil =>
          apply hT0
          exact String.toList_inj.mp (by rw [hl]; rfl)
        | cons c0 t0 =>
          have hc0 : isPySpace c0 = false := by
            apply pyStripL_head (l := text.toList)
            have : (pyStrip text).toList = pyStripL text.toList := rfl
            rw [← this, hl]
          exact sectionsOf_ne_nil (pyStrip text) c0 t0 hl hc0 hS
      | cons s0 rest =>
        rw [hS] at hc
        dsimp only at hc
        have hs0 : s0 ∈ sectionsOf (pyStrip text) := by rw [hS]; simp
        have hrestmem : ∀ s ∈ rest, s ∈ sectionsOf (pyStrip text) := by
          intro s hsm; rw [hS]; simp [hsm]
        have hne : mergeSections maxChars s0 [] rest ≠ [] :=
          mergeSections_ne_nil maxChars rest s0 []
            (sectionsOf_mem_ne_empty hs0)
            (fun s hsm => sectionsOf_mem_ne_empty (hrestmem s hsm))
        cases hM : mergeSections maxChars s0 [] rest with
        | nil => exact absurd hM hne
        | cons m0 ms =>
          rw [hM] at hc
          refine mergeSections_length_le maxChars rest s0 [] (h s0 hs0)
            (fun s hsm => h s (hrestmem s hsm)) (by simp) c ?_
          rw [hM]
          exact hc

/-- C7, amended, witness: `"# a x\n# b y"` (length 11) with `max_chars = 6`
splits into two heading sections of length 5, both within the bound. -/
theorem chunkText_length_le_witness :
    (∀ s ∈ sectionsOf (pyStrip "# a x\n# b y"), s.length ≤ 6) ∧
      ∀ c ∈ chunkText "# a x\n# b y" 6, c.length ≤ 6 :=
  ⟨by decide, chunkText_length_le "# a x\n# b y" 6 (by decide)⟩

/-! ## Claim C6 -/

/-- After `replace_note_embeddings`, the note's chunk rows are exactly the
inserted chunks, indexed in insertion order. -/
lemma chunksFor_replaceNoteEmbeddings (s : Store) (noteId : Int)
    (chunks : List (String × List ℚ)) :
    chunksFor (replaceNoteEmbeddings s noteId chunks) noteId =
      chunks.enum.map (fun p => ChunkRow.mk noteId p.1 p.2.1 p.2.2) := by
  unfold chunksFor replaceNoteEmbeddings
  rw [List.filter_append]
  have h1 : (s.filter (fun r => r.note_id ≠ noteId)).filter (fun r => r.note_id = noteId)
      = [] := by
    rw [List.filter_filter, List.filter_eq_nil_iff]
    intro r _
    simp only [Bool.and_eq_true, decide_eq_true_eq]
    rintro ⟨h2, h3⟩
    exact absurd h2 (by simpa using h3)
  have h2 : (chunks.enum.map (fun p => ChunkRow.mk noteId p.1 p.2.1 p.2.2)).filter
      (fun r => r.note_id = noteId) =
      chunks.enum.map (fun p => ChunkRow.mk noteId p.1 p.2.1 p.2.2) := by
    rw [List.filter_eq_self]
    intro r hr
    obtain ⟨p, _, hp⟩ := List.mem_map.mp hr
    simp [← hp]
  rw [h1, h2, List.nil_append]

/-- Replacing leaves other notes' rows untouched except through its own id. -/
lemma indexNote_eq (notes : List Note) (embed : String → List ℚ) (maxChars : Nat)
    (s : Store) (noteId : Int) :
    indexNote notes embed maxChars s noteId =
      match notes.find? (fun n => n.id = noteId) with
      | none => (false, s)
      | some note =>
        match (chunkText (noteText note) maxChars).filterMap (fun c =>
          match embed c with
          | [] => none
          | v => some (c, v)) with
        | [] => (false, s)
        | ce => (true, replaceNoteEmbeddings s noteId ce) := rfl

/-- C6: when `index_note` returns `True` the note has at least one stored
chunk and the stored chunk indices are contiguous starting at 0; when it
returns `False` (missing note, or every chunk embedding empty) the store is
completely unchanged. -/
theorem indexNote_atomicity (notes : List Note) (embed : String → List ℚ)
    (maxChars : Nat) (s : Store) (noteId : Int) :
    ((indexNote notes embed maxChars s noteId).1 = true →
      chunksFor (indexNote notes embed maxChars s noteId).2 noteId ≠ [] ∧
      (chunksFor (indexNote notes embed maxChars s noteId).2 noteId).map
          (fun r => r.chunk_index) =
        List.range (chunksFor (indexNote notes embed maxChars s noteId).2 noteId).length) ∧
    ((indexNote notes embed maxChars s noteId).1 = false →
      (indexNote notes embed maxChars s noteId).2 = s) := by
  rw [indexNote_eq]
  cases hfind : notes.find? (fun n => n.id = noteId) with
  | none => exact ⟨by simp, by simp⟩
  | some note =>
    dsimp only
    cases hce : (chunkText (noteText note) maxChars).filterMap (fun c =>
        match embed c with
        | [] => none
        | v => some (c, v)) with
    | nil => exact ⟨by simp, by simp⟩
    | cons e es =>
      dsimp only
      constructor
      · intro _
        rw [chunksFor_replaceNoteEmbeddings]
        constructor
        · simp
        · rw [List.map_map]
          have : ((fun r => r.chunk_index) ∘ (fun p => ChunkRow.mk noteId p.1 p.2.1 p.2.2))
              = (Prod.fst : Nat × (String × List ℚ) → Nat) := by
            funext p; rfl
          rw [this, List.enum_map_fst]
          simp
      · intro h
        simp at h

/-- C6, witness: indexing note 1 with a working embedder succeeds and yields
a single chunk with index 0; indexing the missing note 2 fails, leaving the
resulting store unchanged. -/
theorem indexNote_atomicity_witness :
    (chunksFor (indexNote [Note.mk 1 "T" "C"] (fun _ => [1]) 2000 [] 1).2 1 ≠ [] ∧
      (chunksFor (indexNote [Note.mk 1 "T" "C"] (fun _ => [1]) 2000 [] 1).2 1).map
          (fun r => r.chunk_index) =
        List.range (chunksFor (indexNote [Note.mk 1 "T" "C"] (fun _ => [1]) 2000 [] 1).2 1).length) ∧
    (indexNote [Note.mk 1 "T" "C"] (fun _ => [1]) 2000 [] 2).2 = [] :=
  ⟨(indexNote_atomicity [Note.mk 1 "T" "C"] (fun _ => [1]) 2000 [] 1).1 (by decide),
    (indexNote_atomicity [Note.mk 1 "T" "C"] (fun _ => [1]) 2000 [] 2).2 (by decide)⟩

/-! ## Claim C4 -/

/-- The selector loop keeps exactly the chunks whose LLM outcome is
fail-open (exception) or a YES reply, in order, consuming one oracle call per
chunk. -/
lemma selectGo_spec {α : Type} (oracle : Nat → LLMOutcome) :
    ∀ (chunks : List α) (n : Nat),
      (selectGo oracle n chunks).2 = n + chunks.length ∧
      (selectGo oracle n chunks).1 =
        ((List.enumFrom n chunks).filter
          (fun p => isRelevantOutcome (oracle p.1))).map Prod.snd := by
  intro chunks
  induction chunks with
  | nil => intro n; simp [selectGo]
  | cons c t ih =>
    intro n
    obtain ⟨ih2, ih1⟩ := ih (n + 1)
    constructor
    · simp only [selectGo, ih2, List.length_cons]
      omega
    · simp only [selectGo, ih1, List.enumFrom, List.filter_cons]
      by_cases hk : isRelevantOutcome (oracle n) <;> simp [hk]

/-- C4: `ChunkSelector.select` issues exactly one LLM call per chunk (zero
for the empty list), retains every chunk whose call raised (fail-open), drops
every chunk whose reply does not parse to YES — the empty reply in particular
— and returns the retained chunks in input order. -/
theorem select_spec {α : Type} (oracle : Nat → LLMOutcome) (n : Nat)
    (chunks : List α) :
    (select oracle n chunks).2 = n + chunks.length ∧
    (select oracle n chunks).1 =
      ((List.enumFrom n chunks).filter
        (fun p => isRelevantOutcome (oracle p.1))).map Prod.snd ∧
    (∀ e : Unit, isRelevantOutcome (.error e) = true) ∧
    (∀ r : String, isRelevantOutcome (.ok r) = parseResponse r) ∧
    parseResponse "" = false := by
  cases chunks with
  | nil => exact ⟨by simp [select], by simp [select], fun _ => rfl, fun _ => rfl, rfl⟩
  | cons c t =>
    obtain ⟨h2, h1⟩ := selectGo_spec oracle (c :: t) n
    exact ⟨h2, h1, fun _ => rfl, fun _ => rfl, rfl⟩

/-! ## Claim C3 -/

/-- C3, counterexample: `OllamaClient.generate` wraps no try/except around
`_post_json`, so a transport error propagates to the caller instead of
becoming the empty string — the native chat-style variant violates the claim. -/
theorem ollamaGenerate_raises :
    ollamaGenerate (Except.error "connection refused") =
      Except.error "connection refused" ∧
    ollamaGenerate (Except.error "connection refused") ≠ Except.ok "" := by
  exact ⟨rfl, by simp [ollamaGenerate, Except.map]⟩

/-- C3, amended: only the OpenAI-style client's `generate` catches all errors
and returns the empty string (also for a malformed success body with no
choices); the native (Ollama) client's `generate` propagates any transport,
protocol or parsing error to the caller, and on success returns the
`response` field, defaulting to the empty string. -/
theorem generate_error_handling :
    (∀ e : String, openaiGenerate (Except.error e) = "") ∧
    openaiGenerate (Except.ok (OAChatBody.mk [])) = "" ∧
    (∀ c : String, ∀ rest : List String,
      openaiGenerate (Except.ok (OAChatBody.mk (c :: rest))) = c) ∧
    (∀ e : String, ollamaGenerate (Except.error e) = Except.error e) ∧
    (∀ b : OllamaGenBody, ollamaGenerate (Except.ok b) = Except.ok (b.response.getD "")) :=
  ⟨fun _ => rfl, rfl, fun _ _ => rfl, fun _ => rfl, fun _ => rfl⟩

/-! ## Lemmas about rank fusion -/


lemma fuseList_eq_foldl (kq : ℚ) (m : List FEntry) (l : List Doc) :
    fuseList kq m l = l.enum.foldl (fuseStep kq) m := rfl

lemma fuseAdd_cons_pos {e : FEntry} {t : List FEntry} {i : Int} {d : Doc} {v : ℚ}
    (h : e.id = i) :
    fuseAdd (e :: t) i d v = ⟨e.id, e.doc, e.score + v⟩ :: t := by
  simp [fuseAdd, h]

lemma fuseAdd_cons_neg {e : FEntry} {t : List FEntry} {i : Int} {d : Doc} {v : ℚ}
    (h : ¬ e.id = i) :
    fuseAdd (e :: t) i d v = e :: fuseAdd t i d v := by
  simp [fuseAdd, h]

lemma fuseAdd_scoreOf_same (m : List FEntry) (i : Int) (d : Doc) (v : ℚ) :
    scoreOf (fuseAdd m i d v) i = scoreOf m i + v := by
  induction m with
  | nil => simp [fuseAdd, scoreOf]
  | cons e t ih =>
    by_cases h : e.id = i
    · rw [fuseAdd_cons_pos h]
      simp only [scoreOf]
      rw [List.find?_cons_of_pos _ (by simp [h]), List.find?_cons_of_pos _ (by simp [h])]
      simp
    · rw [fuseAdd_cons_neg h]
      simp only [scoreOf]
      rw [List.find?_cons_of_neg _ (by simp [h]), List.find?_cons_of_neg _ (by simp [h])]
      exact ih

lemma fuseAdd_scoreOf_other (m : List FEntry) (i j : Int) (d : Doc) (v : ℚ)
    (hij : j ≠ i) : scoreOf (fuseAdd m i d v) j = scoreOf m j := by
  induction m with
  | nil => simp [fuseAdd, scoreOf, Ne.symm hij]
  | cons e t ih =>
    by_cases h : e.id = i
    · rw [fuseAdd_cons_pos h]
      simp only [scoreOf]
      rw [List.find?_cons_of_neg _ (by simp; exact fun h2 => hij (h2.symm.trans h)),
        List.find?_cons_of_neg _ (by simp; exact fun h2 => hij (h2.symm.trans h))]
    · rw [fuseAdd_cons_neg h]
      simp only [scoreOf]
      by_cases he : e.id = j
      · rw [List.find?_cons_of_pos _ (by simp [he]), List.find?_cons_of_pos _ (by simp [he])]
      · rw [List.find?_cons_of_neg _ (by simp [he]), List.find?_cons_of_neg _ (by simp [he])]
        exact ih

lemma fuseAdd_docOf_same (m : List FEntry) (i : Int) (d : Doc) (v : ℚ) :
    docOf (fuseAdd m i d v) i = some ((docOf m i).getD d) := by
  induction m with
  | nil => simp [fuseAdd, docOf]
  | cons e t ih =>
    by_cases h : e.id = i
    · rw [fuseAdd_cons_pos h]
      simp only [docOf]
      rw [List.find?_cons_of_pos _ (by simp [h]), List.find?_cons_of_pos _ (by simp [h])]
      simp
    · rw [fuseAdd_cons_neg h]
      simp only [docOf]
      rw [List.find?_cons_of_neg _ (by simp [h]), List.find?_cons_of_neg _ (by simp [h])]
      exact ih

lemma fuseAdd_docOf_other (m : List FEntry) (i j : Int) (d : Doc) (v : ℚ)
    (hij : j ≠ i) : docOf (fuseAdd m i d v) j = docOf m j := by
  induction m with
  | nil => simp [fuseAdd, docOf, Ne.symm hij]
  | cons e t ih =>
    by_cases h : e.id = i
    · rw [fuseAdd_cons_pos h]
      simp only [docOf]
      rw [List.find?_cons_of_neg _ (by simp; exact fun h2 => hij (h2.symm.trans h)),
        List.find?_cons_of_neg _ (by simp; exact fun h2 => hij (h2.symm.trans h))]
    · rw [fuseAdd_cons_neg h]
      simp only [docOf]
      by_cases he : e.id = j
      · rw [List.find?_cons_of_pos _ (by simp [he]), List.find?_cons_of_pos _ (by simp [he])]
      · rw [List.find?_cons_of_neg _ (by simp [he]), List.find?_cons_of_neg _ (by simp [he])]
        exact ih

lemma fuseAdd_fkeys_mem (m : List FEntry) (i : Int) (d : Doc) (v : ℚ) (j : Int) :
    j ∈ fkeys (fuseAdd m i d v) ↔ j ∈ fkeys m ∨ j = i := by
  induction m with
  | nil => simp [fuseAdd, fkeys]
  | cons e t ih =>
    by_cases h : e.id = i
    · simp only [fuseAdd, if_pos h, fkeys, List.map_cons, List.mem_cons] at *
      constructor
      · rintro (h2 | h2)
        · exact Or.inl (Or.inl (h ▸ h2))
        · exact Or.inl (Or.inr h2)
      · rintro ((h2 | h2) | h2)
        · exact Or.inl (h ▸ h2)
        · exact Or.inr h2
        · exact Or.inl (h ▸ h2)
    · simp only [fuseAdd, if_neg h, fkeys, List.map_cons, List.mem_cons] at *
      rw [ih]
      tauto

lemma fuseAdd_fkeys_nodup (m : List FEntry) (i : Int) (d : Doc) (v : ℚ)
    (h : (fkeys m).Nodup) : (fkeys (fuseAdd m i d v)).Nodup := by
  induction m with
  | nil => simp [fuseAdd, fkeys]
  | cons e t ih =>
    simp only [fkeys, List.map_cons, List.nodup_cons] at h
    by_cases he : e.id = i
    · simp only [fuseAdd, if_pos he, fkeys, List.map_cons, List.nodup_cons]
      exact ⟨h.1, h.2⟩
    · simp only [fuseAdd, if_neg he, fkeys, List.map_cons, List.nodup_cons]
      refine ⟨?_, ih h.2⟩
      intro hmem
      rw [show (fuseAdd t i d v).map (fun e => e.id) = fkeys (fuseAdd t i d v) from rfl,
        fuseAdd_fkeys_mem] at hmem
      rcases hmem with h2 | h2
      · exact h.1 h2
      · exact he h2

lemma fuseAdd_entry_doc_id (m : List FEntry) (i : Int) (d : Doc) (v : ℚ)
    (hd : d.id = i) (hm : ∀ e ∈ m, e.doc.id = e.id) :
    ∀ e ∈ fuseAdd m i d v, e.doc.id = e.id := by
  induction m with
  | nil =>
    intro e he
    simp [fuseAdd] at he
    simp [he, hd]
  | cons f t ih =>
    intro e he
    by_cases h : f.id = i
    · simp only [fuseAdd, if_pos h, List.mem_cons] at he
      rcases he with he | he
      · rw [he]
        exact hm f (by simp)
      · exact hm e (by simp [he])
    · simp only [fuseAdd, if_neg h, List.mem_cons] at he
      rcases he with he | he
      · exact he ▸ hm f (by simp)
      · exact ih (fun e2 he2 => hm e2 (by simp [he2])) e he


lemma foldl_fuseStep_scoreOf (kq : ℚ) :
    ∀ (ps : List (Nat × Doc)) (m : List FEntry) (j : Int),
      scoreOf (ps.foldl (fuseStep kq) m) j = scoreOf m j + contrib kq ps j := by
  intro ps
  induction ps with
  | nil => intro m j; simp [contrib]
  | cons p ps ih =>
    intro m j
    rw [List.foldl_cons, ih]
    by_cases h : p.2.id = j
    · rw [show fuseStep kq m p = fuseAdd m p.2.id p.2 (1 / (kq + p.1 + 1)) from rfl]
      rw [← h, fuseAdd_scoreOf_same]
      simp only [contrib, List.filter_cons, h]
      rw [if_pos (by simp [h])]
      simp [contrib] at *
      ring
    · rw [show fuseStep kq m p = fuseAdd m p.2.id p.2 (1 / (kq + p.1 + 1)) from rfl]
      rw [fuseAdd_scoreOf_other _ _ _ _ _ (fun h2 => h h2.symm)]
      simp only [contrib, List.filter_cons]
      rw [if_neg (by simp [h])]

lemma foldl_fuseStep_docOf_present (kq : ℚ) :
    ∀ (ps : List (Nat × Doc)) (m : List FEntry) (j : Int) (x : Doc),
      docOf m j = some x → docOf (ps.foldl (fuseStep kq) m) j = some x := by
  intro ps
  induction ps with
  | nil => intro m j x h; simpa using h
  | cons p ps ih =>
    intro m j x h
    rw [List.foldl_cons]
    refine ih _ j x ?_
    by_cases hp : p.2.id = j
    · rw [show fuseStep kq m p = fuseAdd m p.2.id p.2 (1 / (kq + p.1 + 1)) from rfl, hp,
        fuseAdd_docOf_same, h]
      rfl
    · rw [show fuseStep kq m p = fuseAdd m p.2.id p.2 (1 / (kq + p.1 + 1)) from rfl,
        fuseAdd_docOf_other _ _ _ _ _ (fun h2 => hp h2.symm), h]

lemma foldl_fuseStep_docOf (kq : ℚ) :
    ∀ (ps : List (Nat × Doc)) (m : List FEntry) (j : Int),
      docOf (ps.foldl (fuseStep kq) m) j =
        match docOf m j with
        | some x => some x
        | none => (ps.find? (fun p => p.2.id = j)).map (fun p => p.2) := by
  intro ps
  induction ps with
  | nil => intro m j; cases h : docOf m j <;> simp [h]
  | cons p ps ih =>
    intro m j
    cases h : docOf m j with
    | some x => exact foldl_fuseStep_docOf_present kq (p :: ps) m j x h
    | none =>
      rw [List.foldl_cons, ih]
      by_cases hp : p.2.id = j
      · rw [show fuseStep kq m p = fuseAdd m p.2.id p.2 (1 / (kq + p.1 + 1)) from rfl, hp,
          fuseAdd_docOf_same, h]
        rw [List.find?_cons_of_pos _ (by simp [hp])]
        rfl
      · rw [show fuseStep kq m p = fuseAdd m p.2.id p.2 (1 / (kq + p.1 + 1)) from rfl,
          fuseAdd_docOf_other _ _ _ _ _ (fun h2 => hp h2.symm), h]
        rw [List.find?_cons_of_neg _ (by simp [hp])]

lemma foldl_fuseStep_fkeys_mem (kq : ℚ) :
    ∀ (ps : List (Nat × Doc)) (m : List FEntry) (j : Int),
      j ∈ fkeys (ps.foldl (fuseStep kq) m) ↔
        j ∈ fkeys m ∨ ∃ p ∈ ps, p.2.id = j := by
  intro ps
  induction ps with
  | nil => intro m j; simp
  | cons p ps ih =>
    intro m j
    rw [List.foldl_cons, ih,
      show fuseStep kq m p = fuseAdd m p.2.id p.2 (1 / (kq + p.1 + 1)) from rfl,
      fuseAdd_fkeys_mem]
    constructor
    · rintro ((h | h) | h)
      · exact Or.inl h
      · exact Or.inr ⟨p, by simp, h.symm⟩
      · obtain ⟨q, hq, hqj⟩ := h
        exact Or.inr ⟨q, by simp [hq], hqj⟩
    · rintro (h | ⟨q, hq, hqj⟩)
      · exact Or.inl (Or.inl h)
      · rcases List.mem_cons.mp hq with h2 | h2
        · exact Or.inl (Or.inr (h2 ▸ hqj).symm)
        · exact Or.inr ⟨q, h2, hqj⟩

lemma foldl_fuseStep_fkeys_nodup (kq : ℚ) :
    ∀ (ps : List (Nat × Doc)) (m : List FEntry), (fkeys m).Nodup →
      (fkeys (ps.foldl (fuseStep kq) m)).Nodup := by
  intro ps
  induction ps with
  | nil => intro m h; simpa using h
  | cons p ps ih =>
    intro m h
    exact ih _ (fuseAdd_fkeys_nodup _ _ _ _ h)

lemma foldl_fuseStep_doc_id (kq : ℚ) :
    ∀ (ps : List (Nat × Doc)) (m : List FEntry), (∀ e ∈ m, e.doc.id = e.id) →
      ∀ e ∈ ps.foldl (fuseStep kq) m, e.doc.id = e.id := by
  intro ps
  induction ps with
  | nil => intro m h; simpa using h
  | cons p ps ih =>
    intro m h
    exact ih _ (fuseAdd_entry_doc_id _ _ _ _ rfl h)

lemma foldl_fuseList_eq (kq : ℚ) :
    ∀ (ls : List (List Doc)) (m : List FEntry),
      ls.foldl (fuseList kq) m = ((ls.map List.enum).flatten).foldl (fuseStep kq) m := by
  intro ls
  induction ls with
  | nil => intro m; simp
  | cons l ls ih =>
    intro m
    rw [List.foldl_cons, ih, List.map_cons, List.flatten_cons, List.foldl_append,
      fuseList_eq_foldl]

/-- `fuseAll` as a single fold over the scan-ordered occurrences. -/
lemma fuseAll_eq_foldl_occAll (kq : ℚ) (lists : List (List Doc)) :
    fuseAll kq lists = (occAll lists).foldl (fuseStep kq) [] :=
  foldl_fuseList_eq kq lists []

lemma contrib_nil (kq : ℚ) (j : Int) : contrib kq [] j = 0 := rfl

lemma contrib_append (kq : ℚ) (ps qs : List (Nat × Doc)) (j : Int) :
    contrib kq (ps ++ qs) j = contrib kq ps j + contrib kq qs j := by
  unfold contrib
  rw [List.filter_append, List.map_append, List.sum_append]

lemma contrib_zero_of_not_mem (kq : ℚ) {j : Int} :
    ∀ {l : List Doc} {r : Nat}, (∀ d ∈ l, d.id ≠ j) →
      contrib kq (List.enumFrom r l) j = 0 := by
  intro l
  induction l with
  | nil => intro r _; rfl
  | cons d t ih =>
    intro r h
    rw [List.enumFrom_cons]
    unfold contrib
    rw [List.filter_cons, if_neg (by simp [h d (by simp)])]
    exact ih (fun x hx => h x (by simp [hx]))

lemma contrib_enumFrom (kq : ℚ) :
    ∀ (l : List Doc) (r : Nat) (j : Int), (l.map Doc.id).Nodup →
      contrib kq (List.enumFrom r l) j =
        match rankIn l j with
        | some k => 1 / (kq + (r + k) + 1)
        | none => 0 := by
  intro l
  induction l with
  | nil => intro r j _; rfl
  | cons d t ih =>
    intro r j hnd
    simp only [List.map_cons, List.nodup_cons] at hnd
    rw [List.enumFrom_cons]
    by_cases h : d.id = j
    · unfold contrib
      rw [List.filter_cons, if_pos (by simp [h])]
      simp only [List.map_cons, List.sum_cons]
      have htail : contrib kq (List.enumFrom (r + 1) t) j = 0 :=
        contrib_zero_of_not_mem kq (fun x hx hid => hnd.1 (by
          rw [h, ← hid]; exact List.mem_map_of_mem _ hx))
      unfold contrib at htail
      rw [htail]
      simp only [rankIn, if_pos h]
      push_cast
      ring
    · unfold contrib
      rw [List.filter_cons, if_neg (by simp [h])]
      have := ih (r + 1) j hnd.2
      unfold contrib at this
      rw [this]
      simp only [rankIn, if_neg h]
      cases hr : rankIn t j with
      | none => simp
      | some k =>
        simp only [Option.map_some]
        congr 1
        push_cast
        ring

/-- Under per-list id uniqueness, the accumulated score of every id equals
the spec's RRF formula. -/
lemma scoreOf_fuseAll (kq : ℚ) (lists : List (List Doc))
    (h : ∀ l ∈ lists, (l.map Doc.id).Nodup) (j : Int) :
    scoreOf (fuseAll kq lists) j = specScore kq lists j := by
  rw [fuseAll_eq_foldl_occAll, foldl_fuseStep_scoreOf]
  have h0 : scoreOf [] j = 0 := rfl
  rw [h0, zero_add]
  unfold occAll specScore
  induction lists with
  | nil => rfl
  | cons l ls ih =>
    rw [List.map_cons, List.flatten_cons, contrib_append, List.map_cons, List.sum_cons,
      ih (fun x hx => h x (by simp [hx]))]
    congr 1
    have := contrib_enumFrom kq l 0 j (h l (by simp))
    rw [show l.enum = List.enumFrom 0 l from rfl, this]
    unfold listTerm
    cases hr : rankIn l j with
    | none => rfl
    | some k => simp

/-! ### Sorting lemmas -/

lemma insertDesc_perm (e : FEntry) (l : List FEntry) :
    List.Perm (insertDesc e l) (e :: l) := by
  induction l with
  | nil => rfl
  | cons f t ih =>
    unfold insertDesc
    split
    · exact ((ih.cons f).trans (List.Perm.swap e f t)).symm.symm
    · rfl

lemma sortDesc_perm (l : List FEntry) : List.Perm (sortDesc l) l := by
  induction l with
  | nil => rfl
  | cons e t ih =>
    exact (insertDesc_perm e (sortDesc t)).trans (ih.cons e)

lemma insertDesc_sorted (e : FEntry) (l : List FEntry)
    (h : l.Pairwise (fun a b => b.score ≤ a.score)) :
    (insertDesc e l).Pairwise (fun a b => b.score ≤ a.score) := by
  induction l with
  | nil => simp [insertDesc]
  | cons f t ih =>
    rw [List.pairwise_cons] at h
    unfold insertDesc
    split
    · rename_i hgt
      rw [List.pairwise_cons]
      refine ⟨?_, ih h.2⟩
      intro x hx
      rcases List.mem_cons.mp ((insertDesc_perm e t).mem_iff.mp hx) with h2 | h2
      · rw [h2]
        exact le_of_lt hgt
      · exact h.1 x h2
    · rename_i hle
      rw [List.pairwise_cons]
      constructor
      · intro x hx
        rcases List.mem_cons.mp hx with h2 | h2
        · rw [h2]; exact le_of_not_lt hle
        · exact le_trans (h.1 x h2) (le_of_not_lt hle)
      · exact List.pairwise_cons.mpr h

lemma sortDesc_sorted (l : List FEntry) :
    (sortDesc l).Pairwise (fun a b => b.score ≤ a.score) := by
  induction l with
  | nil => simp [sortDesc]
  | cons e t ih => exact insertDesc_sorted e (sortDesc t) ih

lemma sorted_head_max {x : FEntry} {t : List FEntry}
    (h : (x :: t).Pairwise (fun a b => b.score ≤ a.score)) :
    ∀ y ∈ x :: t, y.score ≤ x.score := by
  intro y hy
  rcases List.mem_cons.mp hy with h2 | h2
  · rw [h2]
  · exact (List.pairwise_cons.mp h).1 y h2

/-! ### Membership and lookup lemmas for the fused map -/

lemma find?_of_mem_nodup :
    ∀ {m : List FEntry}, (fkeys m).Nodup → ∀ {e : FEntry}, e ∈ m →
      m.find? (fun x => x.id = e.id) = some e := by
  intro m
  induction m with
  | nil => intro _ e he; simp at he
  | cons f t ih =>
    intro hnd e he
    simp only [fkeys, List.map_cons, List.nodup_cons] at hnd
    rcases List.mem_cons.mp he with h | h
    · rw [h, List.find?_cons_of_pos _ (by simp)]
    · have hne : f.id ≠ e.id := by
        intro h2
        exact hnd.1 (h2 ▸ List.mem_map_of_mem (fun x => x.id) h)
      rw [List.find?_cons_of_neg _ (by simp [hne]), ih hnd.2 h]

lemma scoreOf_of_mem {m : List FEntry} (hnd : (fkeys m).Nodup) {e : FEntry}
    (he : e ∈ m) : scoreOf m e.id = e.score := by
  unfold scoreOf
  rw [find?_of_mem_nodup hnd he]
  rfl

lemma fkeys_mem_iff (m : List FEntry) (j : Int) :
    j ∈ fkeys m ↔ ∃ e ∈ m, e.id = j := by
  simp [fkeys]

lemma exists_occ_enumFrom_iff {j : Int} :
    ∀ {l : List Doc} {r : Nat},
      (∃ p ∈ List.enumFrom r l, (p : Nat × Doc).2.id = j) ↔ ∃ d ∈ l, d.id = j := by
  intro l
  induction l with
  | nil => intro r; simp
  | cons d t ih =>
    intro r
    rw [List.enumFrom_cons]
    constructor
    · rintro ⟨p, hp, hpj⟩
      rcases List.mem_cons.mp hp with h | h
      · exact ⟨d, by simp, by rw [← hpj, h]⟩
      · obtain ⟨d2, hd2, hd2j⟩ := ih.mp ⟨p, h, hpj⟩
        exact ⟨d2, by simp [hd2], hd2j⟩
    · rintro ⟨d2, hd2, hd2j⟩
      rcases List.mem_cons.mp hd2 with h | h
      · exact ⟨(r, d), by simp, by rw [h] at hd2j; exact hd2j⟩
      · obtain ⟨p, hp, hpj⟩ := (ih (r := r + 1)).mpr ⟨d2, h, hd2j⟩
        exact ⟨p, by simp [hp], hpj⟩

lemma exists_occ_occAll_iff (lists : List (List Doc)) (j : Int) :
    (∃ p ∈ occAll lists, (p : Nat × Doc).2.id = j) ↔
      ∃ l ∈ lists, ∃ d ∈ l, d.id = j := by
  unfold occAll
  induction lists with
  | nil => simp
  | cons l ls ih =>
    rw [List.map_cons, List.flatten_cons]
    constructor
    · rintro ⟨p, hp, hpj⟩
      rcases List.mem_append.mp hp with h | h
      · exact ⟨l, by simp, (exists_occ_enumFrom_iff (r := 0)).mp ⟨p, h, hpj⟩⟩
      · obtain ⟨l2, hl2, hd⟩ := ih.mp ⟨p, h, hpj⟩
        exact ⟨l2, by simp [hl2], hd⟩
    · rintro ⟨l2, hl2, d, hd, hdj⟩
      rcases List.mem_cons.mp hl2 with h | h
      · obtain ⟨p, hp, hpj⟩ := (exists_occ_enumFrom_iff (r := 0)).mpr ⟨d, h ▸ hd, hdj⟩
        exact ⟨p, List.mem_append.mpr (Or.inl hp), hpj⟩
      · obtain ⟨p, hp, hpj⟩ := ih.mpr ⟨l2, h, d, hd, hdj⟩
        exact ⟨p, List.mem_append.mpr (Or.inr hp), hpj⟩

lemma fuseAll_fkeys_nodup (kq : ℚ) (lists : List (List Doc)) :
    (fkeys (fuseAll kq lists)).Nodup := by
  rw [fuseAll_eq_foldl_occAll]
  exact foldl_fuseStep_fkeys_nodup kq (occAll lists) [] (by simp [fkeys])

lemma fuseAll_doc_id (kq : ℚ) (lists : List (List Doc)) :
    ∀ e ∈ fuseAll kq lists, e.doc.id = e.id := by
  rw [fuseAll_eq_foldl_occAll]
  exact foldl_fuseStep_doc_id kq (occAll lists) [] (by simp)

lemma fuseAll_fkeys_mem (kq : ℚ) (lists : List (List Doc)) (j : Int) :
    j ∈ fkeys (fuseAll kq lists) ↔ ∃ l ∈ lists, ∃ d ∈ l, d.id = j := by
  rw [fuseAll_eq_foldl_occAll, foldl_fuseStep_fkeys_mem, ← exists_occ_occAll_iff]
  simp [fkeys]

/-! ## Claim C8 -/

/-- C8: `reciprocal_rank_fusion` (with per-list unique ids, as produced by
the grouped SQL queries) assigns each document the spec score
`Σⱼ 1/(k + rankⱼ)` with `k = 60` and zero contribution from lists not
containing it, returns all documents of all lists sorted by descending score,
returns `[]` on empty input, and ranks a document that is first in every list
(of a non-empty collection of non-empty lists) strictly highest and first. -/
theorem rrf_spec (lists : List (List Doc))
    (hnd : ∀ l ∈ lists, (l.map Doc.id).Nodup) :
    rrf 60 [] = [] ∧
    (∀ d ∈ rrf 60 lists, d.rrf_score = some (specScore 60 lists d.id)) ∧
    (rrf 60 lists).Pairwise
      (fun a b => b.rrf_score.getD 0 ≤ a.rrf_score.getD 0) ∧
    (∀ j : Int, (∃ l ∈ lists, ∃ d ∈ l, d.id = j) ↔ ∃ d ∈ rrf 60 lists, d.id = j) ∧
    (∀ i0 : Int, lists ≠ [] →
      (∀ l ∈ lists, ∃ d t, l = d :: t ∧ d.id = i0) →
      (∀ j : Int, (∃ l ∈ lists, ∃ d ∈ l, d.id = j) → j ≠ i0 →
        specScore 60 lists j < specScore 60 lists i0) ∧
      ∃ d t, rrf 60 lists = d :: t ∧ d.id = i0) := by
  have hperm := sortDesc_perm (fuseAll 60 lists)
  have hkeys := fuseAll_fkeys_nodup 60 lists
  have hdocid := fuseAll_doc_id 60 lists
  -- every entry of the sorted map has the spec score and coherent ids
  have hentry : ∀ e ∈ sortDesc (fuseAll 60 lists),
      e.score = specScore 60 lists e.id ∧ e.doc.id = e.id := by
    intro e he
    have hmem : e ∈ fuseAll 60 lists := hperm.mem_iff.mp he
    exact ⟨(scoreOf_of_mem hkeys hmem).symm.trans (scoreOf_fuseAll 60 lists hnd e.id),
      hdocid e hmem⟩
  refine ⟨rfl, ?_, ?_, ?_, ?_⟩
  · intro d hd
    obtain ⟨e, he, hde⟩ := List.mem_map.mp hd
    obtain ⟨hs, hid⟩ := hentry e he
    rw [← hde]
    simp only [Option.some_inj]
    rw [hid, ← hs]
  · refine List.Pairwise.map _ ?_ (sortDesc_sorted (fuseAll 60 lists))
    intro a b hab
    simpa using hab
  · intro j
    rw [← fuseAll_fkeys_mem 60 lists j]
    unfold rrf
    constructor
    · intro hj
      obtain ⟨e, he, hej⟩ := (fkeys_mem_iff _ _).mp hj
      refine ⟨{ e.doc with rrf_score := some e.score }, ?_, ?_⟩
      · exact List.mem_map_of_mem _ (hperm.mem_iff.mpr he)
      · simpa [hdocid e he] using hej
    · rintro ⟨d, hd, hdj⟩
      obtain ⟨e, he, hde⟩ := List.mem_map.mp hd
      refine (fkeys_mem_iff _ _).mpr ⟨e, hperm.mem_iff.mp he, ?_⟩
      rw [← hdocid e (hperm.mem_iff.mp he)]
      rw [← hde] at hdj
      simpa using hdj
  · intro i0 hne hheads
    have hlen : 1 ≤ lists.length := by
      cases lists with
      | nil => exact absurd rfl hne
      | cons _ _ => simp
    -- spec score of the everywhere-first document
    have hi0 : specScore 60 lists i0 = (lists.length : ℚ) * (1 / 61) := by
      unfold specScore
      have hmap : lists.map (listTerm 60 i0) = List.replicate lists.length ((1 : ℚ) / 61) := by
        rw [List.eq_replicate_iff]
        refine ⟨by simp, ?_⟩
        intro b hb
        obtain ⟨l, hl, hlb⟩ := List.mem_map.mp hb
        obtain ⟨d, t, hdt, hdi⟩ := hheads l hl
        rw [← hlb, hdt]
        unfold listTerm
        simp only [rankIn, if_pos hdi]
        norm_num
      rw [hmap, List.sum_replicate, nsmul_eq_mul]
    have hstrict : ∀ j : Int, (∃ l ∈ lists, ∃ d ∈ l, d.id = j) → j ≠ i0 →
        specScore 60 lists j < specScore 60 lists i0 := by
      intro j _ hji
      have hbound : specScore 60 lists j ≤ (lists.length : ℚ) * (1 / 62) := by
        unfold specScore
        have hterm : ∀ x ∈ lists.map (listTerm 60 j), x ≤ 1 / 62 := by
          intro x hx
          obtain ⟨l, hl, hlx⟩ := List.mem_map.mp hx
          obtain ⟨d, t, hdt, hdi⟩ := hheads l hl
          rw [← hlx, hdt]
          have hdj : ¬ d.id = j := by rw [hdi]; exact fun h2 => hji h2.symm
          unfold listTerm
          simp only [rankIn, if_neg hdj]
          cases hr : rankIn t j with
          | none => norm_num
          | some k =>
            show (1 : ℚ) / (60 + ((k + 1 : Nat) : ℚ) + 1) ≤ 1 / 62
            apply one_div_le_one_div_of_le
            · norm_num
            · push_cast
              have hk : (0 : ℚ) ≤ (k : ℚ) := by positivity
              linarith
        calc (lists.map (listTerm 60 j)).sum
            ≤ (lists.map (listTerm 60 j)).length • ((1 : ℚ) / 62) :=
              List.sum_le_card_nsmul _ _ hterm
          _ = (lists.length : ℚ) * (1 / 62) := by
              rw [List.length_map, nsmul_eq_mul]
      refine lt_of_le_of_lt hbound ?_
      rw [hi0]
      have hpos : (0 : ℚ) < lists.length := by exact_mod_cast hlen
      have : (1 : ℚ) / 62 < 1 / 61 := by norm_num
      exact mul_lt_mul_of_pos_left this hpos
    refine ⟨hstrict, ?_⟩
    -- the fused map contains an entry for i0
    have hi0mem : i0 ∈ fkeys (fuseAll 60 lists) := by
      rw [fuseAll_fkeys_mem]
      obtain ⟨l, hl⟩ : ∃ l, l ∈ lists := by
        cases lists with
        | nil => exact absurd rfl hne
        | cons a t => exact ⟨a, by simp⟩
      obtain ⟨d, t, hdt, hdi⟩ := hheads l hl
      exact ⟨l, hl, d, by rw [hdt]; simp, hdi⟩
    obtain ⟨ei0, hei0, hei0id⟩ := (fkeys_mem_iff _ _).mp hi0mem
    cases hsd : sortDesc (fuseAll 60 lists) with
    | nil =>
      exfalso
      have := hperm.mem_iff.mpr hei0
      rw [hsd] at this
      simp at this
    | cons e0 rest =>
      have he0id : e0.id = i0 := by
        by_contra he0ne
        have he0mem : e0 ∈ sortDesc (fuseAll 60 lists) := by rw [hsd]; simp
        have hei0sd : ei0 ∈ sortDesc (fuseAll 60 lists) := hperm.mem_iff.mpr hei0
        have hle : ei0.score ≤ e0.score := by
          rw [hsd] at hei0sd
          exact sorted_head_max (hsd ▸ sortDesc_sorted (fuseAll 60 lists)) ei0 hei0sd
        obtain ⟨hs0, _⟩ := hentry e0 he0mem
        obtain ⟨hsi, _⟩ := hentry ei0 (hperm.mem_iff.mpr hei0)
        have hocc : ∃ l ∈ lists, ∃ d ∈ l, d.id = e0.id := by
          rw [← fuseAll_fkeys_mem 60 lists]
          exact (fkeys_mem_iff _ _).mpr ⟨e0, hperm.mem_iff.mp he0mem, rfl⟩
        have hlt := hstrict e0.id hocc he0ne
        rw [← hs0, ← (hei0id ▸ hsi : ei0.score = specScore 60 lists i0)] at hlt
        exact absurd hle (not_le_of_lt hlt)
      refine ⟨{ e0.doc with rrf_score := some e0.score },
        rest.map (fun e => { e.doc with rrf_score := some e.score }), ?_, ?_⟩
      · unfold rrf
        rw [hsd]
        rfl
      · have he0mem : e0 ∈ sortDesc (fuseAll 60 lists) := by rw [hsd]; simp
        obtain ⟨_, hid⟩ := hentry e0 he0mem
        simpa [hid] using he0id

/-- C8, witness: two overlapping ranked lists with document 1 first in both;
document 1 ends up first with the strictly highest score. -/
theorem rrf_spec_witness :
    (∃ d t, rrf 60 [[Doc.mk 1 "a" "x" none, Doc.mk 2 "b" "y" none],
        [Doc.mk 1 "a" "x" none, Doc.mk 3 "c" "z" none]] = d :: t ∧ d.id = 1) ∧
    specScore 60 [[Doc.mk 1 "a" "x" none, Doc.mk 2 "b" "y" none],
        [Doc.mk 1 "a" "x" none, Doc.mk 3 "c" "z" none]] 2 <
      specScore 60 [[Doc.mk 1 "a" "x" none, Doc.mk 2 "b" "y" none],
        [Doc.mk 1 "a" "x" none, Doc.mk 3 "c" "z" none]] 1 := by
  have hheads : ∀ l ∈ [[Doc.mk 1 "a" "x" none, Doc.mk 2 "b" "y" none],
      [Doc.mk 1 "a" "x" none, Doc.mk 3 "c" "z" none]],
      ∃ d t, l = d :: t ∧ d.id = 1 := by
    intro l hl
    rcases List.mem_cons.mp hl with h | h
    · exact ⟨Doc.mk 1 "a" "x" none, [Doc.mk 2 "b" "y" none], h, rfl⟩
    · rcases List.mem_cons.mp h with h2 | h2
      · exact ⟨Doc.mk 1 "a" "x" none, [Doc.mk 3 "c" "z" none], h2, rfl⟩
      · simp at h2
  have h := (rrf_spec [[Doc.mk 1 "a" "x" none, Doc.mk 2 "b" "y" none],
      [Doc.mk 1 "a" "x" none, Doc.mk 3 "c" "z" none]] (by decide)).2.2.2.2 1
    (by simp) hheads
  refine ⟨h.2, h.1 2 ?_ (by decide)⟩
  exact ⟨[Doc.mk 1 "a" "x" none, Doc.mk 2 "b" "y" none], by simp,
    Doc.mk 2 "b" "y" none, by simp, rfl⟩

/-! ## Claim C9 -/

lemma option_or_map {α β : Type} (f : α → β) (a b : Option α) :
    (a.or b).map f = (a.map f).or (b.map f) := by
  cases a <;> simp

lemma find?_enumFrom_snd (j : Int) :
    ∀ (l : List Doc) (r : Nat),
      ((List.enumFrom r l).find? (fun p => p.2.id = j)).map Prod.snd =
        l.find? (fun d => d.id = j) := by
  intro l
  induction l with
  | nil => intro r; rfl
  | cons d t ih =>
    intro r
    rw [List.enumFrom_cons]
    by_cases h : d.id = j
    · rw [List.find?_cons_of_pos _ (by simp [h]), List.find?_cons_of_pos _ (by simp [h])]
      rfl
    · rw [List.find?_cons_of_neg _ (by simp [h]), List.find?_cons_of_neg _ (by simp [h])]
      exact ih (r + 1)

lemma find?_occAll_snd (lists : List (List Doc)) (j : Int) :
    ((occAll lists).find? (fun p => p.2.id = j)).map Prod.snd =
      lists.flatten.find? (fun d => d.id = j) := by
  induction lists with
  | nil => rfl
  | cons l ls ih =>
    unfold occAll at *
    rw [List.map_cons, List.flatten_cons, List.flatten_cons, List.find?_append,
      List.find?_append, option_or_map, ih,
      show (l.enum : List (Nat × Doc)) = List.enumFrom 0 l from rfl,
      find?_enumFrom_snd]

/-- C9: when an id occurs in several input lists (or several times overall),
the returned document for that id is a copy of its first occurrence in scan
order (earliest list, then earliest rank) with `rrf_score` set; every
occurrence — later duplicates included — contributes `1/(k + rank)` to the
accumulated score, and only to the score. -/
theorem rrf_first_occurrence (kq : ℚ) (lists : List (List Doc)) :
    ∀ d ∈ rrf kq lists,
      ∃ d0, lists.flatten.find? (fun x => x.id = d.id) = some d0 ∧
        d = { d0 with rrf_score := some (contrib kq (occAll lists) d.id) } ∧
        d.rrf_score = some (contrib kq (occAll lists) d.id) := by
  intro d hd
  obtain ⟨e, he, hde⟩ := List.mem_map.mp hd
  have hmem : e ∈ fuseAll kq lists := (sortDesc_perm _).mem_iff.mp he
  have hkeys := fuseAll_fkeys_nodup kq lists
  have hid : e.doc.id = e.id := fuseAll_doc_id kq lists e hmem
  have hdid : d.id = e.id := by rw [← hde]; simpa using hid
  have hscore : scoreOf (fuseAll kq lists) e.id = e.score := scoreOf_of_mem hkeys hmem
  have hcontrib : scoreOf (fuseAll kq lists) e.id = contrib kq (occAll lists) e.id := by
    rw [fuseAll_eq_foldl_occAll, foldl_fuseStep_scoreOf]
    show (0 : ℚ) + _ = _
    rw [zero_add]
  have hdoc : docOf (fuseAll kq lists) e.id = some e.doc := by
    unfold docOf
    rw [find?_of_mem_nodup hkeys hmem]
    rfl
  have hfound : lists.flatten.find? (fun x => x.id = e.id) = some e.doc := by
    rw [← find?_occAll_snd]
    have := hdoc
    rw [fuseAll_eq_foldl_occAll, foldl_fuseStep_docOf] at this
    have hnone : docOf ([] : List FEntry) e.id = none := rfl
    rw [hnone] at this
    exact this
  have hc2 : contrib kq (occAll lists) d.id = e.score := by
    rw [hdid, ← hcontrib, hscore]
  refine ⟨e.doc, by rw [hdid]; exact hfound, ?_, ?_⟩
  · rw [hc2]
    exact hde.symm
  · rw [hc2, ← hde]

/-- C9, witness: with document 7 occurring in both lists, the returned
document is a copy of the first occurrence (titled `"first"`) with the
accumulated score attached. -/
theorem rrf_first_occurrence_witness :
    ∃ d, d ∈ rrf 60 dupLL ∧
      ∃ d0, dupLL.flatten.find? (fun x => x.id = d.id) = some d0 ∧
        d = { d0 with rrf_score := some (contrib 60 (occAll dupLL) d.id) } ∧
        d.rrf_score = some (contrib 60 (occAll dupLL) d.id) := by
  have hsd : ∃ e rest, sortDesc (fuseAll 60 dupLL) = e :: rest := ⟨_, _, rfl⟩
  obtain ⟨e, rest, he⟩ := hsd
  have hd : { e.doc with rrf_score := some e.score } ∈ rrf 60 dupLL := by
    unfold rrf
    rw [he]
    exact List.mem_cons_self _ _
  exact ⟨_, hd, rrf_first_occurrence 60 dupLL _ hd⟩

/-! ## Claim C10 -/

lemma pyStripL_eq_nil_iff {l : List Char} :
    pyStripL l = [] ↔ ∀ c ∈ l, isPySpace c = true := by
  unfold pyStripL
  rw [List.reverse_eq_nil_iff, List.dropWhile_eq_nil_iff]
  constructor
  · intro h c hc
    have hsplit := List.takeWhile_append_dropWhile (p := isPySpace) (l := l)
    rw [← hsplit] at hc
    rcases List.mem_append.mp hc with h2 | h2
    · exact List.mem_takeWhile_imp h2
    · exact h c (List.mem_reverse.mpr h2)
  · intro h c hc
    exact h c ((List.dropWhile_sublist isPySpace).subset (List.mem_reverse.mp hc))

lemma wsWordsL_eq_nil {l : List Char} (h : ∀ c ∈ l, isPySpace c = true) :
    wsWordsL l = [] := by
  unfold wsWordsL
  induction l with
  | nil => rfl
  | cons c t ih =>
    unfold wsWordsGo
    rw [if_pos (h c (by simp)), if_pos rfl]
    exact ih (fun x hx => h x (by simp [hx]))

lemma normalizeQuery_eq_empty {question : String} (h : pyStrip question = "") :
    normalizeQuery question = "" := by
  have hall : ∀ c ∈ question.toList, isPySpace c = true := by
    rw [← pyStripL_eq_nil_iff]
    have := congrArg String.toList h
    simpa [pyStrip] using this
  unfold normalizeQuery wsWords
  rw [wsWordsL_eq_nil hall]
  rfl

/-- C10: a blank (empty or whitespace-only) question makes the expander
return `[]` for every target count with no LLM call, and makes
`RagIndex.query` return `[]` with an empty external-call trace: no embedding
call, no vector search, no BM25 search (and no expansion call either). -/
theorem blank_question_no_work (env : QueryEnv) (gen : String → LLMOutcome)
    (question : String) (h : pyStrip question = "") (targetCount : Int)
    (topK : Nat) (tqc : Int) (hybrid useHybrid : Option Bool) :
    expand gen question targetCount = ([], 0) ∧
    ragQuery env question topK tqc hybrid useHybrid = ([], []) := by
  have hnq : normalizeQuery question = "" := normalizeQuery_eq_empty h
  constructor
  · unfold expand
    rw [hnq]
    simp
  · unfold ragQuery expandQuestions
    have hexp : expand env.gen question tqc = ([], 0) := by
      unfold expand
      rw [hnq]
      simp
    rw [h, hexp]
    simp

/-- C10, witness: the three-space question at a concrete environment. -/
theorem blank_question_no_work_witness :
    expand (fun _ => (Except.ok "alt" : LLMOutcome)) "   " 5 = ([], 0) ∧
    ragQuery (QueryEnv.mk [] [] (fun _ _ => 0) (fun _ => []) (fun _ => .ok "") (fun _ => []))
      "   " 5 3 none none = ([], []) :=
  blank_question_no_work
    (QueryEnv.mk [] [] (fun _ _ => 0) (fun _ => []) (fun _ => .ok "") (fun _ => []))
    (fun _ => (Except.ok "alt" : LLMOutcome)) "   " (by decide) 5 5 3 none none

/-! ## Claim C1 -/


lemma collectRankedLists_blob (env : QueryEnv) (fetchK : Nat) (hybrid : Bool) :
    ∀ qs : List String,
      (collectRankedLists env fetchK hybrid qs).2.1 = hydrationKey env.embed qs := by
  intro qs
  induction qs with
  | nil => rfl
  | cons q rest ih =>
    unfold collectRankedLists hydrationKey
    cases hv : env.embed q with
    | nil => simpa [hv] using ih
    | cons a v => by_cases hb : hybrid <;> simp [hv, hb]

lemma collectRankedLists_ne_nil (env : QueryEnv) (fetchK : Nat) (hybrid : Bool) :
    ∀ (qs : List String) (key : List ℚ),
      hydrationKey env.embed qs = some key →
      (collectRankedLists env fetchK hybrid qs).1 ≠ [] := by
  intro qs
  induction qs with
  | nil => intro key h; exact absurd h (by simp [hydrationKey])
  | cons q rest ih =>
    intro key h
    unfold collectRankedLists
    cases hv : env.embed q with
    | nil =>
      unfold hydrationKey at h
      rw [hv] at h
      simpa [hv] using ih key h
    | cons a v => by_cases hb : hybrid <;> simp [hv, hb]

/-- The fold in `get_best_chunk_text` returns a row of minimal distance
(earliest on ties). -/
lemma foldl_min_row (dist : List ℚ → List ℚ → ℚ) (qvec : List ℚ) :
    ∀ (rs : List ChunkRow) (r : ChunkRow),
      (rs.foldl (fun best r2 =>
        if dist r2.vec qvec < dist best.vec qvec then r2 else best) r) ∈ r :: rs ∧
      ∀ x ∈ r :: rs,
        dist (rs.foldl (fun best r2 =>
          if dist r2.vec qvec < dist best.vec qvec then r2 else best) r).vec qvec ≤
          dist x.vec qvec := by
  intro rs
  induction rs with
  | nil =>
    intro r
    constructor
    · simp
    · intro x hx
      simp at hx
      subst hx
      simp
  | cons r2 rs ih =>
    intro r
    rw [List.foldl_cons]
    obtain ⟨hmem, hmin⟩ := ih (if dist r2.vec qvec < dist r.vec qvec then r2 else r)
    constructor
    · rcases List.mem_cons.mp hmem with h | h
      · rw [h]
        by_cases hc : dist r2.vec qvec < dist r.vec qvec
        · rw [if_pos hc]
          exact List.mem_cons_of_mem _ (List.mem_cons_self _ _)
        · rw [if_neg hc]
          exact List.mem_cons_self _ _
      · exact List.mem_cons_of_mem _ (List.mem_cons_of_mem _ h)
    · intro x hx
      rcases List.mem_cons.mp hx with h | h
      · refine le_trans (hmin _ (List.mem_cons_self _ _)) ?_
        rw [h]
        by_cases hc : dist r2.vec qvec < dist r.vec qvec
        · rw [if_pos hc]
          exact le_of_lt hc
        · rw [if_neg hc]
      · rcases List.mem_cons.mp h with h2 | h2
        · refine le_trans (hmin _ (List.mem_cons_self _ _)) ?_
          rw [h2]
          by_cases hc : dist r2.vec qvec < dist r.vec qvec
          · rw [if_pos hc]
          · rw [if_neg hc]
            exact le_of_not_lt hc
        · exact hmin x (List.mem_cons_of_mem _ h2)

/-- The spec-modelled `best_chunk_text` returns the text of a chunk of the
note of minimal cosine distance to the query, whenever the note has chunks. -/
lemma bestChunkText_spec (dist : List ℚ → List ℚ → ℚ) (store : Store)
    (noteId : Int) (qvec : List ℚ) (h : chunksFor store noteId ≠ []) :
    ∃ row ∈ chunksFor store noteId,
      (∀ row2 ∈ chunksFor store noteId, dist row.vec qvec ≤ dist row2.vec qvec) ∧
      bestChunkText dist store noteId qvec = some row.chunk_text := by
  unfold bestChunkText
  cases hc : chunksFor store noteId with
  | nil => exact absurd hc h
  | cons r rs =>
    obtain ⟨hmem, hmin⟩ := foldl_min_row dist qvec rs r
    exact ⟨_, hc ▸ hmem, fun row2 h2 => hmin row2 (hc ▸ h2), rfl⟩

/-- Hydration rewrites each result's content to its note's best chunk text
whenever the note has stored chunks. -/
lemma hydrateChunkContent_spec (dist : List ℚ → List ℚ → ℚ) (store : Store)
    (results : List Doc) (qvec : List ℚ) :
    ∀ d ∈ hydrateChunkContent dist store results (some qvec),
      chunksFor store d.id ≠ [] →
      ∃ row ∈ chunksFor store d.id,
        (∀ row2 ∈ chunksFor store d.id, dist row.vec qvec ≤ dist row2.vec qvec) ∧
        d.content = row.chunk_text := by
  intro d hd hchunks
  unfold hydrateChunkContent at hd
  obtain ⟨d0, hd0, hdd⟩ := List.mem_map.mp hd
  have hid : d.id = d0.id := by
    rw [← hdd]
    cases hb : bestChunkText dist store d0.id qvec <;> simp [hb]
  rw [hid] at hchunks ⊢
  obtain ⟨row, hrow, hmin, hbest⟩ := bestChunkText_spec dist store d0.id qvec hchunks
  refine ⟨row, hrow, hmin, ?_⟩
  rw [← hdd, hbest]

/-- C1, amended (spec-modelled `best_chunk_text`): whenever at least one leg
obtains an embedding (so the hydration key exists), every returned document
whose note has at least one stored chunk carries as `content` the text of a
stored chunk of that note of minimal cosine distance to the hydration key;
a result whose note has no stored chunks (reachable through BM25) keeps its
full-note content. -/
theorem ragQuery_hydrated (env : QueryEnv) (question : String) (topK : Nat)
    (tqc : Int) (hybrid useHybrid : Option Bool) (key : List ℚ)
    (hkey : hydrationKey env.embed (expandQuestions env question tqc).1 = some key) :
    ∀ d ∈ (ragQuery env question topK tqc hybrid useHybrid).1,
      chunksFor env.store d.id ≠ [] →
      ∃ row ∈ chunksFor env.store d.id,
        (∀ row2 ∈ chunksFor env.store d.id,
          env.dist row.vec key ≤ env.dist row2.vec key) ∧
        d.content = row.chunk_text := by
  have hene : (expandQuestions env question tqc).1 ≠ [] := by
    intro h0
    rw [h0] at hkey
    exact absurd hkey (by simp [hydrationKey])
  have hblob := collectRankedLists_blob env (topK * 4) (resolveHybrid hybrid useHybrid)
    (expandQuestions env question tqc).1
  have hcne : (collectRankedLists env (topK * 4) (resolveHybrid hybrid useHybrid)
      (expandQuestions env question tqc).1).1 ≠ [] :=
    collectRankedLists_ne_nil _ _ _ _ key hkey
  have heq : (ragQuery env question topK tqc hybrid useHybrid).1 =
      hydrateChunkContent env.dist env.store
        ((match (collectRankedLists env (topK * 4) (resolveHybrid hybrid useHybrid)
            (expandQuestions env question tqc).1).1 with
          | [l] => l
          | ls => rrf 60 ls).take topK) (some key) := by
    unfold ragQuery
    dsimp only
    rw [if_neg hene, if_neg hcne, hblob, hkey]
  rw [heq]
  exact hydrateChunkContent_spec env.dist env.store _ key



lemma cex_results :
    (ragQuery cexEnv "q" 5 1 none none).1 =
      hydrateChunkContent cexEnv.dist cexEnv.store (rrf 60 cexLL) (some [1]) := by
  have h1 : expandQuestions cexEnv "q" 1 = (["q"], []) := by decide
  have h2 : collectRankedLists cexEnv 20 true ["q"] =
      (cexLL, some [1],
        [CallTag.embedCall "q", CallTag.vecSearchCall, CallTag.bm25Call "q"]) := by
    decide
  have hres : resolveHybrid none none = true := rfl
  unfold ragQuery
  dsimp only
  rw [hres, h1]
  dsimp only
  rw [if_neg (by simp), h2]
  dsimp only
  rw [if_neg (by simp [cexLL])]
  have hlen : (rrf 60 cexLL).length ≤ 5 := by
    unfold rrf
    rw [List.length_map, (sortDesc_perm (fuseAll 60 cexLL)).length_eq]
    have : (fuseAll 60 cexLL).length = 2 := by decide
    rw [this]
    norm_num
  rw [show (match cexLL with
      | [l] => l
      | ls => rrf 60 ls) = rrf 60 cexLL from rfl,
    List.take_of_length_le hlen]

lemma cex_mem (i : Int) (doc : Doc) (hdoc : doc ∈ List.flatten cexLL)
    (hdocid : doc.id = i)
    (hfind : cexLL.flatten.find? (fun x => x.id = i) = some doc)
    (hbest : bestChunkText cexEnv.dist cexEnv.store i [1] = none) :
    ∃ d ∈ (ragQuery cexEnv "q" 5 1 none none).1, d.id = i ∧ d.content = doc.content := by
  rw [cex_results]
  have hnd : ∀ l ∈ cexLL, (l.map Doc.id).Nodup := by decide
  have hl : ∃ l ∈ cexLL, l ∈ cexLL ∧ True := ⟨[Doc.mk 1 "t1" "c1" none], by simp [cexLL], by simp [cexLL], trivial⟩
  obtain ⟨d, hd, hdid⟩ := ((rrf_spec cexLL hnd).2.2.2.1 i).mp (by
    rcases List.mem_flatten.mp hdoc with ⟨l, hlmem, hdl⟩
    exact ⟨l, hlmem, doc, hdl, hdocid⟩)
  obtain ⟨d0, hfind0, hdeq, _⟩ := rrf_first_occurrence 60 cexLL d hd
  rw [hdid, hfind] at hfind0
  have hd0 : d0 = doc := by injection hfind0.symm
  have hcontent : d.content = doc.content := by rw [hdeq, hd0]
  have hbestd : bestChunkText cexEnv.dist cexEnv.store d.id [1] = none := by
    rw [hdid]; exact hbest
  refine ⟨d, ?_, hdid, hcontent⟩
  unfold hydrateChunkContent
  have : (fun d : Doc =>
      match bestChunkText cexEnv.dist cexEnv.store d.id [1] with
      | some t => { d with content := t }
      | none => d) d = d := by
    dsimp only
    rw [hbestd]
  rw [← this]
  exact List.mem_map_of_mem _ hd

/-- C1, counterexample: the query's embedding succeeds (hydration key `[1]`),
yet the BM25-only hit on note 2 — which has no stored chunks — is returned
with its full-note content `"c2"`, which is not the text of any stored chunk
of that note; hydration does not succeed for every result. -/
theorem ragQuery_hydration_counterexample :
    hydrationKey cexEnv.embed (expandQuestions cexEnv "q" 1).1 = some [1] ∧
    ¬ (∀ d ∈ (ragQuery cexEnv "q" 5 1 none none).1,
        ∃ row ∈ chunksFor cexEnv.store d.id, d.content = row.chunk_text) := by
  refine ⟨by decide, ?_⟩
  intro hall
  obtain ⟨d, hd, hdid, hdc⟩ := cex_mem 2 (Doc.mk 2 "t2" "c2" none)
    (by decide) rfl (by decide) (by decide)
  obtain ⟨row, hrow, _⟩ := hall d hd
  rw [hdid] at hrow
  have hempty : chunksFor cexEnv.store 2 = [] := by decide
  rw [hempty] at hrow
  exact absurd hrow (by simp)

/-- C1, amended, witness: in the same environment the vector hit on note 1 is
hydrated — its content is the text of a stored chunk of note 1 of minimal
distance to the hydration key. -/
theorem ragQuery_hydrated_witness :
    ∃ d ∈ (ragQuery cexEnv "q" 5 1 none none).1,
      ∃ row ∈ chunksFor cexEnv.store d.id,
        (∀ row2 ∈ chunksFor cexEnv.store d.id,
          cexEnv.dist row.vec [1] ≤ cexEnv.dist row2.vec [1]) ∧
        d.content = row.chunk_text := by
  have hmem1 : ∃ d ∈ (ragQuery cexEnv "q" 5 1 none none).1, d.id = 1 := by
    rw [cex_results]
    have hnd : ∀ l ∈ cexLL, (l.map Doc.id).Nodup := by decide
    obtain ⟨d, hd, hdid⟩ := ((rrf_spec cexLL hnd).2.2.2.1 1).mp
      ⟨[Doc.mk 1 "t1" "c1" none], by simp [cexLL], Doc.mk 1 "t1" "c1" none, by simp, rfl⟩
    refine ⟨(fun d : Doc =>
      match bestChunkText cexEnv.dist cexEnv.store d.id [1] with
      | some t => { d with content := t }
      | none => d) d, List.mem_map_of_mem _ hd, ?_⟩
    dsimp only
    rw [hdid]
    have : bestChunkText cexEnv.dist cexEnv.store (1 : Int) [1] = some "chunk-one" := by
      decide
    rw [this]
  obtain ⟨d, hd, hdid⟩ := hmem1
  exact ⟨d, hd, ragQuery_hydrated cexEnv "q" 5 1 none none [1] (by decide) d hd
    (by rw [hdid]; decide)⟩

/-! ## Claims C2 and C5 -/

/-- A delta free of the `<think>` marker passes through `_extract_deltas`
whole, as an answer delta, with an empty remainder. -/
lemma extractDeltas_clean (s : String) (h : hasOpenTag s = false) :
    extractDeltas s false = ("", s, false, "") := by
  have hfind : findSub openTag (s.toList.map Char.toLower) = none := by
    cases hf : findSub openTag (s.toList.map Char.toLower) with
    | none => rfl
    | some i =>
      unfold hasOpenTag at h
      rw [hf] at h
      simp at h
  cases hl : s.toList with
  | nil =>
    have hs : s = "" := String.toList_inj.mp (by rw [hl]; rfl)
    subst hs
    rfl
  | cons c t =>
    rw [hl] at hfind
    unfold extractDeltas
    rw [hl]
    dsimp only
    have hstep : edGo ((c :: t).length + 1) [] [] false (c :: t) =
        ([], [] ++ c :: t, false, []) := by
      rw [show (c :: t).length + 1 = t.length + 1 + 1 from by simp]
      unfold edGo
      dsimp only
      rw [if_neg (by simp), hfind]
    rw [hstep]
    dsimp only
    rw [if_neg (by simp)]
    have hback : ((c :: t).asString : String) = s := by rw [← hl]; rfl
    rw [List.nil_append, hback]
    rfl

/-- The streaming loop on clean non-empty chunks with no cancellation:
one answer-delta event per chunk, then the terminal event. -/
lemma streamGo_clean (sources : List String) :
    ∀ (chunks : List String) (i : Nat),
      (∀ c ∈ chunks, c ≠ "" ∧ hasOpenTag c = false) →
      streamGo none sources chunks "" false i =
        chunks.map (fun c => deltaEvent "" c sources) ++ [terminalEvent sources] := by
  intro chunks
  induction chunks with
  | nil => intro i _; simp [streamGo]
  | cons c rest ih =>
    intro i h
    obtain ⟨hne, hclean⟩ := h c (by simp)
    unfold streamGo
    dsimp only
    have hcat : ("" : String) ++ c = c := rfl
    rw [hcat, extractDeltas_clean c hclean]
    dsimp only
    rw [if_pos (Or.inr hne), ih (i + 1) (fun x hx => h x (by simp [hx]))]
    simp

lemma foldl_append_init (l : List String) (init : String) :
    l.foldl (· ++ ·) init = init ++ l.foldl (· ++ ·) "" := by
  induction l generalizing init with
  | nil => simp
  | cons a t ih =>
    simp only [List.foldl_cons]
    rw [ih (init ++ a), ih ("" ++ a)]
    simp [String.append_assoc]

lemma join_append (a b : List String) :
    String.join (a ++ b) = String.join a ++ String.join b := by
  show (a ++ b).foldl (· ++ ·) "" = a.foldl (· ++ ·) "" ++ b.foldl (· ++ ·) ""
  rw [List.foldl_append]
  exact foldl_append_init b _

lemma join_cons (x : String) (l : List String) :
    String.join (x :: l) = x ++ String.join l := by
  show (x :: l).foldl (· ++ ·) "" = x ++ l.foldl (· ++ ·) ""
  rw [List.foldl_cons, foldl_append_init l ("" ++ x)]
  simp

lemma answersJoined_append (a b : List StreamEvent) :
    answersJoined (a ++ b) = answersJoined a ++ answersJoined b := by
  unfold answersJoined
  rw [List.map_append, join_append]

lemma answersJoined_status (ms sources : List String) :
    answersJoined (ms.map (fun m => statusEvent m sources)) = "" := by
  induction ms with
  | nil => rfl
  | cons m t ih =>
    unfold answersJoined at *
    rw [List.map_cons, List.map_cons, join_cons, ih]
    rfl

lemma answersJoined_deltas (cs sources : List String) :
    answersJoined (cs.map (fun c => deltaEvent "" c sources)) = String.join cs := by
  induction cs with
  | nil => rfl
  | cons c t ih =>
    unfold answersJoined at *
    rw [List.map_cons, List.map_cons, join_cons, ih, join_cons]
    rfl

/-- C2, amended: provided no single delta contains the `<think>` marker
(case-insensitively), `ask_stream` without cancellation emits the status
events, then one non-empty answer-delta event per LLM delta in generation
order, then the terminal `done` event; the concatenation of all
`answer_delta` fields equals the LLM's full completion and the last event
carries `done=true`. -/
theorem askStream_deltas (statusUpdates sources chunks : List String)
    (h : ∀ c ∈ chunks, c ≠ "" ∧ hasOpenTag c = false) :
    askStream statusUpdates sources chunks none =
      statusUpdates.map (fun m => statusEvent m sources) ++
        [statusEvent "Querying Ollama" sources] ++
        chunks.map (fun c => deltaEvent "" c sources) ++ [terminalEvent sources] ∧
    answersJoined (askStream statusUpdates sources chunks none) = String.join chunks ∧
    (askStream statusUpdates sources chunks none).getLast? =
      some (terminalEvent sources) ∧
    (∀ ev ∈ askStream statusUpdates sources chunks none,
      ev.status = none → ev.done = false → ev.answer_delta ≠ "") := by
  have heq : askStream statusUpdates sources chunks none =
      statusUpdates.map (fun m => statusEvent m sources) ++
        [statusEvent "Querying Ollama" sources] ++
        chunks.map (fun c => deltaEvent "" c sources) ++ [terminalEvent sources] := by
    unfold askStream
    rw [streamGo_clean sources chunks 0 h]
    simp [List.append_assoc]
  refine ⟨heq, ?_, ?_, ?_⟩
  · rw [heq, answersJoined_append, answersJoined_append, answersJoined_append,
      answersJoined_status, answersJoined_deltas]
    have h1 : answersJoined [statusEvent "Querying Ollama" sources] = "" := rfl
    have h2 : answersJoined [terminalEvent sources] = "" := rfl
    rw [h1, h2]
    simp
  · rw [heq]
    exact List.getLast?_concat _
  · intro ev hev hst hdone
    rw [heq] at hev
    rcases List.mem_append.mp hev with h1 | h1
    · rcases List.mem_append.mp h1 with h2 | h2
      · rcases List.mem_append.mp h2 with h3 | h3
        · obtain ⟨m, _, hm⟩ := List.mem_map.mp h3
          rw [← hm] at hst
          exact absurd hst (by simp [statusEvent])
        · simp only [List.mem_singleton] at h3
          rw [h3] at hst
          exact absurd hst (by simp [statusEvent])
      · obtain ⟨c, hc, hcev⟩ := List.mem_map.mp h2
        rw [← hcev]
        exact (h c hc).1
    · simp only [List.mem_singleton] at h1
      rw [h1] at hdone
      exact absurd hdone (by simp [terminalEvent])

/-- C2, amended, witness: two clean deltas produce exactly two answer-delta
events whose concatenation is the full completion, then the terminal event. -/
theorem askStream_deltas_witness :
    askStream [] [] ["He", "llo"] none =
      [statusEvent "Querying Ollama" [], deltaEvent "" "He" [],
        deltaEvent "" "llo" [], terminalEvent []] ∧
    answersJoined (askStream [] [] ["He", "llo"] none) = "Hello" := by
  have h := askStream_deltas [] [] ["He", "llo"] (by decide)
  refine ⟨by rw [h.1]; rfl, by rw [h.2.1]; rfl⟩

/-- C2, counterexample: a single delta containing `<think>…</think>` is split
by `_extract_deltas`, so the concatenation of the emitted `answer_delta`
fields is `"b"`, not the LLM's full completion `"<think>a</think>b"`. -/
theorem askStream_counterexample :
    answersJoined (askStream [] [] ["<think>a</think>b"] none) = "b" ∧
    String.join ["<think>a</think>b"] = "<think>a</think>b" ∧
    ("b" : String) ≠ "<think>a</think>b" := by
  decide

/-- The streaming loop under a cancel predicate that first fires at poll `k`:
the first `k` (clean) chunks are delivered, then the single cancelled
terminal event, and the rest of the stream is never consumed. -/
lemma streamGo_cancel (sources : List String) (p : Nat → Bool) :
    ∀ (k : Nat) (chunks : List String) (i : Nat),
      (∀ j, j < k → p (i + j) = false) → p (i + k) = true →
      k < chunks.length →
      (∀ c ∈ chunks.take k, c ≠ "" ∧ hasOpenTag c = false) →
      streamGo (some p) sources chunks "" false i =
        (chunks.take k).map (fun c => deltaEvent "" c sources) ++
          [cancelledEvent sources] := by
  intro k
  induction k with
  | zero =>
    intro chunks i _ hpk hlen _
    cases chunks with
    | nil => simp at hlen
    | cons c rest =>
      unfold streamGo
      rw [Nat.add_zero] at hpk
      rw [if_pos (by simp [hpk])]
      simp
  | succ k ih =>
    intro chunks i hk hpk hlen hclean
    cases chunks with
    | nil => simp at hlen
    | cons c rest =>
      obtain ⟨hne, hcleanc⟩ := hclean c (by simp)
      have h0 : p i = false := by
        have := hk 0 (by omega)
        simpa using this
      unfold streamGo
      rw [if_neg (by simp [h0])]
      dsimp only
      have hcat : ("" : String) ++ c = c := rfl
      rw [hcat, extractDeltas_clean c hcleanc]
      dsimp only
      rw [if_pos (Or.inr hne)]
      have hk2 : ∀ j, j < k → p (i + 1 + j) = false := by
        intro j hj
        rw [show i + 1 + j = i + (j + 1) from by omega]
        exact hk (j + 1) (by omega)
      have hpk2 : p (i + 1 + k) = true := by
        rw [show i + 1 + k = i + (k + 1) from by omega]
        exact hpk
      have hlen2 : k < rest.length := by
        simp only [List.length_cons] at hlen
        omega
      have hclean2 : ∀ x ∈ rest.take k, x ≠ "" ∧ hasOpenTag x = false := by
        intro x hx
        exact hclean x (by simp [hx])
      rw [ih rest (i + 1) hk2 hpk2 hlen2 hclean2]
      simp

/-- C5: the first time the cancel predicate is observed true (at poll `k`,
after `k` delta events), `ask_stream` emits exactly one terminal event with
`done=true, cancelled=true`, emits nothing afterwards, and never consumes the
rest of the LLM stream (the output only depends on the first `k` deltas); in
particular a predicate that flips to true after 2 deltas yields exactly 2
answer-delta events and then the single cancelled terminal event. -/
theorem askStream_cancellation (statusUpdates sources chunks : List String)
    (p : Nat → Bool) (k : Nat)
    (hk : ∀ j, j < k → p j = false) (hpk : p k = true) (hlen : k < chunks.length)
    (hclean : ∀ c ∈ chunks.take k, c ≠ "" ∧ hasOpenTag c = false) :
    askStream statusUpdates sources chunks (some p) =
      statusUpdates.map (fun m => statusEvent m sources) ++
        [statusEvent "Querying Ollama" sources] ++
        (chunks.take k).map (fun c => deltaEvent "" c sources) ++
        [cancelledEvent sources] ∧
    (∀ ev ∈ statusUpdates.map (fun m => statusEvent m sources) ++
        [statusEvent "Querying Ollama" sources] ++
        (chunks.take k).map (fun c => deltaEvent "" c sources),
      ev.done = false ∧ ev.cancelled = false) ∧
    (∀ chunks2 : List String, k < chunks2.length → chunks2.take k = chunks.take k →
      askStream statusUpdates sources chunks2 (some p) =
        askStream statusUpdates sources chunks (some p)) := by
  have hgo := streamGo_cancel sources p k chunks 0 (fun j hj => by rw [Nat.zero_add]; exact hk j hj) (by rw [Nat.zero_add]; exact hpk) hlen hclean
  have heq : askStream statusUpdates sources chunks (some p) =
      statusUpdates.map (fun m => statusEvent m sources) ++
        [statusEvent "Querying Ollama" sources] ++
        (chunks.take k).map (fun c => deltaEvent "" c sources) ++
        [cancelledEvent sources] := by
    unfold askStream
    rw [hgo]
    simp [List.append_assoc]
  refine ⟨heq, ?_, ?_⟩
  · intro ev hev
    rcases List.mem_append.mp hev with h1 | h1
    · rcases List.mem_append.mp h1 with h2 | h2
      · obtain ⟨m, _, hm⟩ := List.mem_map.mp h2
        rw [← hm]
        exact ⟨rfl, rfl⟩
      · simp only [List.mem_singleton] at h2
        rw [h2]
        exact ⟨rfl, rfl⟩
    · obtain ⟨c, _, hcev⟩ := List.mem_map.mp h1
      rw [← hcev]
      exact ⟨rfl, rfl⟩
  · intro chunks2 hlen2 htake
    have hgo2 := streamGo_cancel sources p k chunks2 0 (fun j hj => by rw [Nat.zero_add]; exact hk j hj) (by rw [Nat.zero_add]; exact hpk) hlen2
      (by rw [htake]; exact hclean)
    unfold askStream
    rw [hgo, hgo2, htake]

/-- C5, witness: with deltas `["a","b","c"]` and a predicate that flips to
true at the third poll, the caller sees one status event, the query event,
exactly 2 answer-delta events and then the single cancelled terminal event. -/
theorem askStream_cancellation_witness :
    askStream ["Searching notes"] ["t"] ["a", "b", "c"]
        (some (fun i => decide (2 ≤ i))) =
      [statusEvent "Searching notes" ["t"], statusEvent "Querying Ollama" ["t"],
        deltaEvent "" "a" ["t"], deltaEvent "" "b" ["t"], cancelledEvent ["t"]] := by
  have h := askStream_cancellation ["Searching notes"] ["t"] ["a", "b", "c"]
    (fun i => decide (2 ≤ i)) 2 (by decide) (by decide) (by decide) (by decide)
  rw [h.1]
  rfl

end AiNotes
